import Mathlib

/-!
Verification of the IPC trading system (message protocol, shared-memory
order-book store, signal engine, execution simulator) against its
natural-language specification.

The wire format is JSON over a length-framed byte stream.  We embed the
JSON sublanguage actually produced by the code: objects, arrays, strings,
integers, booleans and null, working directly over byte lists (the
payloads the code produces are ASCII).  JSON numbers are modelled as
integers (the exact-decimal subset); Python floats are out of scope of
the shallow embedding, and all quantitative strategy/execution state is
modelled over the rationals.
-/

/- Byte-level JSON values, mirroring the values that `json.dumps` and
`json.loads` exchange in `src/utils/protocol.py` and
`src/utils/shared_memory.py`.  Mutual inductives are used so that
structural recursion over arrays and objects is available. -/
mutual
inductive Json where
  | null : Json
  | bool (b : Bool) : Json
  | num (n : Int) : Json
  | str (s : List Nat) : Json
  | arr (elems : JArr) : Json
  | obj (members : JObj) : Json
  deriving DecidableEq
inductive JArr where
  | nil : JArr
  | cons (hd : Json) (tl : JArr) : JArr
  deriving DecidableEq
inductive JObj where
  | nil : JObj
  | cons (key : List Nat) (val : Json) (tl : JObj) : JObj
  deriving DecidableEq
end

/-- A byte is a "safe" string byte when it is printable ASCII and neither
a quote (34) nor a backslash (92): for such strings `json.dumps` applies
no escaping, so the printed form is the byte sequence itself. -/
def safeByte (b : Nat) : Bool := 32 ≤ b && b ≤ 126 && b ≠ 34 && b ≠ 92

/-- A string usable without escaping in the JSON printer model. -/
def strValid (s : List Nat) : Bool := s.all safeByte

/- Validity of a JSON value for the printer model: every string (and
object key) consists of safe bytes. -/
mutual
def jvalid : Json → Bool
  | .null => true
  | .bool _ => true
  | .num _ => true
  | .str s => strValid s
  | .arr l => avalid l
  | .obj m => ovalid m
def avalid : JArr → Bool
  | .nil => true
  | .cons h t => jvalid h && avalid t
def ovalid : JObj → Bool
  | .nil => true
  | .cons k v t => strValid k && jvalid v && ovalid t
end

/-- Decimal digits of a natural number, accumulator style (used to model
Python integer formatting inside `json.dumps`).  The first argument is
fuel bounding the recursion depth; any fuel at least the number itself
is enough, and `printNat` supplies the number as its own fuel. -/
def printNatAux : Nat → Nat → List Nat → List Nat
  | 0, _, acc => acc
  | _+1, 0, acc => acc
  | fuel+1, n+1, acc => printNatAux fuel ((n+1) / 10) ((48 + (n+1) % 10) :: acc)

/-- Decimal byte representation of a natural number. -/
def printNat (n : Nat) : List Nat :=
  if n = 0 then [48] else printNatAux n n []

/-- Decimal byte representation of an integer, as `json.dumps` prints
Python ints. -/
def printInt : Int → List Nat
  | .ofNat n => printNat n
  | .negSucc m => 45 :: printNat (m+1)

/- The byte-level JSON printer modelling `json.dumps` with its default
separators (comma-space and colon-space, the defaults used everywhere in
the repo).  `dumpsA` and `dumpsASep` produce array elements and the
separated tail; `dumpsO` and `dumpsOSep` do the same for object members. -/
mutual
def dumps : Json → List Nat
  | .null => [110, 117, 108, 108]
  | .bool true => [116, 114, 117, 101]
  | .bool false => [102, 97, 108, 115, 101]
  | .num n => printInt n
  | .str s => 34 :: (s ++ [34])
  | .arr l => 91 :: (dumpsA l ++ [93])
  | .obj m => 123 :: (dumpsO m ++ [125])
def dumpsA : JArr → List Nat
  | .nil => []
  | .cons h t => dumps h ++ dumpsASep t
def dumpsASep : JArr → List Nat
  | .nil => []
  | .cons h t => 44 :: 32 :: (dumps h ++ dumpsASep t)
def dumpsO : JObj → List Nat
  | .nil => []
  | .cons k v t => 34 :: (k ++ 34 :: 58 :: 32 :: (dumps v ++ dumpsOSep t))
def dumpsOSep : JObj → List Nat
  | .nil => []
  | .cons k v t => 44 :: 32 :: 34 :: (k ++ 34 :: 58 :: 32 :: (dumps v ++ dumpsOSep t))
end

/-- JSON insignificant whitespace bytes (space, tab, newline, carriage
return), as skipped by `json.loads`. -/
def isWsB (b : Nat) : Bool := b = 32 || b = 9 || b = 10 || b = 13

/-- Skip leading JSON whitespace. -/
def skipWs : List Nat → List Nat
  | [] => []
  | b :: s => if isWsB b then skipWs s else b :: s

/-- ASCII decimal digit test. -/
def isDigitB (b : Nat) : Bool := 48 ≤ b && b ≤ 57

/-- Maximal-munch digit run, accumulating the decimal value. -/
def parseDigits : List Nat → Nat → Nat × List Nat
  | [], acc => (acc, [])
  | b :: s, acc =>
    if isDigitB b then parseDigits s (acc * 10 + (b - 48)) else (acc, b :: s)

/-- Parse an optionally signed decimal integer (the JSON number subset the
repo actually produces). -/
def parseNum : List Nat → Option (Int × List Nat)
  | [] => none
  | b :: s =>
    if b = 45 then
      match s with
      | [] => none
      | b2 :: s2 =>
        if isDigitB b2 then
          let p := parseDigits s2 (b2 - 48)
          some (-(p.1 : Int), p.2)
        else none
    else if isDigitB b then
      let p := parseDigits s (b - 48)
      some ((p.1 : Int), p.2)
    else none

/-- Parse the remainder of a JSON string after the opening quote.  Escape
sequences and control bytes are outside the modelled sublanguage and
rejected. -/
def parseStr : List Nat → Option (List Nat × List Nat)
  | [] => none
  | b :: r =>
    if b = 34 then some ([], r)
    else if b = 92 then none
    else if b < 32 then none
    else
      match parseStr r with
      | some p => some (b :: p.1, p.2)
      | none => none

/-- Consume an expected literal byte sequence. -/
def dropLit : List Nat → List Nat → Option (List Nat)
  | [], s => some s
  | _ :: _, [] => none
  | l :: ls, b :: s => if b = l then dropLit ls s else none

/- Recursive-descent JSON parser modelling `json.loads` on the printed
sublanguage, driven by a fuel parameter.  A value is dispatched on its
first byte; arrays and objects are parsed by `parseElems` (first element
or empty) and `parseElemsRest` (comma-separated tail), and analogously
`parseMembers`/`parseMembersRest` with `parseMember` for a single
key-value pair. -/
mutual
def parseValue : Nat → List Nat → Option (Json × List Nat)
  | 0, _ => none
  | f+1, s =>
    match skipWs s with
    | [] => none
    | c :: r =>
      if c = 110 then
        match dropLit [117, 108, 108] r with
        | some r2 => some (.null, r2)
        | none => none
      else if c = 116 then
        match dropLit [114, 117, 101] r with
        | some r2 => some (.bool true, r2)
        | none => none
      else if c = 102 then
        match dropLit [97, 108, 115, 101] r with
        | some r2 => some (.bool false, r2)
        | none => none
      else if c = 34 then
        match parseStr r with
        | some p => some (.str p.1, p.2)
        | none => none
      else if c = 91 then
        match parseElems f r with
        | some p => some (.arr p.1, p.2)
        | none => none
      else if c = 123 then
        match parseMembers f r with
        | some p => some (.obj p.1, p.2)
        | none => none
      else if c = 45 || isDigitB c then
        match parseNum (c :: r) with
        | some p => some (.num p.1, p.2)
        | none => none
      else none
def parseElems : Nat → List Nat → Option (JArr × List Nat)
  | 0, _ => none
  | f+1, s =>
    match skipWs s with
    | [] => none
    | c :: r =>
      if c = 93 then some (.nil, r)
      else
        match parseValue f (c :: r) with
        | some p =>
          match parseElemsRest f p.2 with
          | some q => some (.cons p.1 q.1, q.2)
          | none => none
        | none => none
def parseElemsRest : Nat → List Nat → Option (JArr × List Nat)
  | 0, _ => none
  | f+1, s =>
    match skipWs s with
    | [] => none
    | c :: r =>
      if c = 93 then some (.nil, r)
      else if c = 44 then
        match parseValue f r with
        | some p =>
          match parseElemsRest f p.2 with
          | some q => some (.cons p.1 q.1, q.2)
          | none => none
        | none => none
      else none
def parseMember : Nat → List Nat → Option ((List Nat × Json) × List Nat)
  | 0, _ => none
  | f+1, s =>
    match skipWs s with
    | [] => none
    | c :: r =>
      if c = 34 then
        match parseStr r with
        | some kp =>
          match skipWs kp.2 with
          | [] => none
          | c2 :: r2 =>
            if c2 = 58 then
              match parseValue f r2 with
              | some vp => some ((kp.1, vp.1), vp.2)
              | none => none
            else none
        | none => none
      else none
def parseMembers : Nat → List Nat → Option (JObj × List Nat)
  | 0, _ => none
  | f+1, s =>
    match skipWs s with
    | [] => none
    | c :: r =>
      if c = 125 then some (.nil, r)
      else
        match parseMember f (c :: r) with
        | some p =>
          match parseMembersRest f p.2 with
          | some q => some (.cons p.1.1 p.1.2 q.1, q.2)
          | none => none
        | none => none
def parseMembersRest : Nat → List Nat → Option (JObj × List Nat)
  | 0, _ => none
  | f+1, s =>
    match skipWs s with
    | [] => none
    | c :: r =>
      if c = 125 then some (.nil, r)
      else if c = 44 then
        match parseMember f r with
        | some p =>
          match parseMembersRest f p.2 with
          | some q => some (.cons p.1.1 p.1.2 q.1, q.2)
          | none => none
        | none => none
      else none
end

/- Parser fuel bounds: `fsize` is an upper bound on the fuel needed to
parse the printed form of a value. -/
mutual
def fsize : Json → Nat
  | .null => 1
  | .bool _ => 1
  | .num _ => 1
  | .str _ => 1
  | .arr l => 1 + fsizeA l
  | .obj m => 1 + fsizeO m
def fsizeA : JArr → Nat
  | .nil => 1
  | .cons h t => 1 + max (fsize h) (fsizeS t)
def fsizeS : JArr → Nat
  | .nil => 1
  | .cons h t => 1 + max (fsize h) (fsizeS t)
def fsizeO : JObj → Nat
  | .nil => 1
  | .cons _ v t => 1 + max (1 + fsize v) (fsizeOS t)
def fsizeOS : JObj → Nat
  | .nil => 1
  | .cons _ v t => 1 + max (1 + fsize v) (fsizeOS t)
end

/-- Parse a complete JSON document, modelling `json.loads`: one value,
then nothing but whitespace may remain (Python raises "Extra data"
otherwise, which the model maps to `none`). -/
def pyLoads (s : List Nat) : Option Json :=
  match parseValue (s.length + 1) s with
  | some (j, r) => if skipWs r = [] then some j else none
  | none => none

/-- The byte list `r` does not begin with a decimal digit (so a
maximal-munch number parse stops exactly at the printed digits). -/
def headNotDigit : List Nat → Bool
  | [] => true
  | b :: _ => !isDigitB b

theorem skipWs_cons_of_not_ws {b : Nat} (h : isWsB b = false) (s : List Nat) :
    skipWs (b :: s) = b :: s := by
  simp [skipWs, h]

theorem dropLit_append (l r : List Nat) : dropLit l (l ++ r) = some r := by
  induction l with
  | nil => rfl
  | cons b t ih => simp [dropLit, ih]

theorem parseStr_append {s : List Nat} (h : strValid s = true) (r : List Nat) :
    parseStr (s ++ 34 :: r) = some (s, r) := by
  induction s with
  | nil => rfl
  | cons b t ih =>
    simp only [strValid, List.all_cons, Bool.and_eq_true] at h
    have hb : safeByte b = true := h.1
    simp only [safeByte, Bool.and_eq_true, decide_eq_true_eq, bne_iff_ne, ne_eq] at hb
    have ih2 := ih h.2
    simp only [List.cons_append, parseStr]
    have h34 : ¬ b = 34 := hb.1.2
    have h92 : ¬ b = 92 := hb.2
    have hlt : ¬ b < 32 := by omega
    simp [h34, h92, hlt, ih2]

/-- Decimal value of a run of digit bytes, starting from an accumulator. -/
def valAcc (acc : Nat) (ds : List Nat) : Nat :=
  ds.foldl (fun a b => a * 10 + (b - 48)) acc

theorem valAcc_nil (acc : Nat) : valAcc acc [] = acc := rfl

theorem valAcc_cons (acc b : Nat) (t : List Nat) :
    valAcc acc (b :: t) = valAcc (acc * 10 + (b - 48)) t := rfl

theorem parseDigits_digits (ds : List Nat) (h : ∀ b ∈ ds, isDigitB b = true) :
    ∀ r acc, headNotDigit r = true →
      parseDigits (ds ++ r) acc = (valAcc acc ds, r) := by
  induction ds with
  | nil =>
    intro r acc hr
    cases r with
    | nil => rfl
    | cons b s =>
      simp only [headNotDigit, Bool.not_eq_true'] at hr
      simp [parseDigits, hr, valAcc]
  | cons b t ih =>
    intro r acc hr
    have hb : isDigitB b = true := h b (List.mem_cons_self b t)
    simp only [List.cons_append, parseDigits, hb, if_true, List.append_eq]
    rw [ih (fun x hx => h x (List.mem_cons_of_mem b hx)) r _ hr, valAcc_cons]

theorem printNatAux_fuel (n : Nat) : ∀ f1 f2 acc, n ≤ f1 → n ≤ f2 →
    printNatAux f1 n acc = printNatAux f2 n acc := by
  induction n using Nat.strong_induction_on with
  | _ n ih =>
    intro f1 f2 acc h1 h2
    match n, f1, f2, h1, h2 with
    | 0, 0, 0, _, _ => rfl
    | 0, 0, _+1, _, _ => rfl
    | 0, _+1, 0, _, _ => rfl
    | 0, _+1, _+1, _, _ => rfl
    | n+1, f1+1, f2+1, h1, h2 =>
      rw [printNatAux, printNatAux]
      have hq : (n+1) / 10 < n + 1 := Nat.div_lt_self (Nat.succ_pos n) (by omega)
      exact ih _ hq f1 f2 _ (by omega) (by omega)

theorem printNatAux_eq_append (n : Nat) : ∀ fuel acc, n ≤ fuel →
    printNatAux fuel n acc = printNatAux fuel n [] ++ acc := by
  induction n using Nat.strong_induction_on with
  | _ n ih =>
    intro fuel acc hf
    match n, fuel, hf with
    | 0, 0, _ => simp [printNatAux]
    | 0, _+1, _ => simp [printNatAux]
    | n+1, fuel+1, hf =>
      rw [printNatAux, printNatAux]
      have hq : (n+1) / 10 < n + 1 := Nat.div_lt_self (Nat.succ_pos n) (by omega)
      rw [ih _ hq fuel ((48 + (n+1) % 10) :: acc) (by omega),
        ih _ hq fuel [48 + (n+1) % 10] (by omega)]
      simp

theorem printNatAux_digits (n : Nat) : ∀ fuel, n ≤ fuel →
    ∀ b ∈ printNatAux fuel n [], isDigitB b = true := by
  induction n using Nat.strong_induction_on with
  | _ n ih =>
    intro fuel hf
    match n, fuel, hf with
    | 0, 0, _ => intro b hb; simp [printNatAux] at hb
    | 0, _+1, _ => intro b hb; simp [printNatAux] at hb
    | n+1, fuel+1, hf =>
      intro b hb
      have hq : (n+1) / 10 < n + 1 := Nat.div_lt_self (Nat.succ_pos n) (by omega)
      rw [printNatAux, printNatAux_eq_append _ fuel _ (by omega)] at hb
      rcases List.mem_append.mp hb with h1 | h2
      · exact ih _ hq fuel (by omega) b h1
      · have : b = 48 + (n+1) % 10 := by simpa using h2
        have : (n+1) % 10 < 10 := Nat.mod_lt _ (by omega)
        simp only [isDigitB, Bool.and_eq_true, decide_eq_true_eq]
        omega

theorem printNat_digits (n : Nat) : ∀ b ∈ printNat n, isDigitB b = true := by
  unfold printNat
  split
  · intro b hb; simp at hb; subst hb; decide
  · exact printNatAux_digits n n le_rfl

theorem printNat_ne_nil (n : Nat) : printNat n ≠ [] := by
  unfold printNat
  split
  · simp
  · rename_i h
    match n, h with
    | n+1, _ =>
      rw [printNatAux, printNatAux_eq_append _ n _ (by
        have := Nat.div_lt_self (Nat.succ_pos n) (show 1 < 10 by omega)
        omega)]
      simp

theorem valAcc_append (acc : Nat) (xs ys : List Nat) :
    valAcc acc (xs ++ ys) = valAcc (valAcc acc xs) ys := by
  simp [valAcc, List.foldl_append]

theorem valAcc_shift (ds : List Nat) : ∀ acc,
    valAcc acc ds = acc * 10 ^ ds.length + valAcc 0 ds := by
  induction ds with
  | nil => intro acc; simp [valAcc]
  | cons b t ih =>
    intro acc
    rw [valAcc_cons, ih, valAcc_cons 0, ih (0 * 10 + (b - 48))]
    simp [List.length_cons, pow_succ]
    ring

theorem valAcc_printNat (n : Nat) : valAcc 0 (printNat n) = n := by
  induction n using Nat.strong_induction_on with
  | _ n ih =>
    match n with
    | 0 => decide
    | n+1 =>
      have hpos : (0:Nat) < n + 1 := Nat.succ_pos n
      have hlt : (n+1) / 10 < n + 1 := Nat.div_lt_self hpos (by omega)
      unfold printNat
      simp only [Nat.succ_ne_zero, if_false]
      rw [printNatAux, printNatAux_eq_append _ n _ (by omega)]
      by_cases h10 : (n+1) / 10 = 0
      · rw [h10]
        have hz : printNatAux n 0 [] = [] := by
          cases n <;> rfl
        rw [hz]
        simp only [List.nil_append]
        rw [valAcc_cons, valAcc_nil]
        omega
      · have ihq := ih _ hlt
        unfold printNat at ihq
        rw [if_neg h10] at ihq
        rw [printNatAux_fuel ((n+1)/10) n ((n+1)/10) [] (by omega) le_rfl]
        rw [valAcc_append, ihq, valAcc_cons, valAcc_nil]
        omega

theorem parseNum_print (n : Int) (r : List Nat) (hr : headNotDigit r = true) :
    parseNum (printInt n ++ r) = some (n, r) := by
  cases n with
  | ofNat m =>
    obtain ⟨d, ds, hds⟩ : ∃ d ds, printNat m = d :: ds := by
      cases h : printNat m with
      | nil => exact absurd h (printNat_ne_nil m)
      | cons a t => exact ⟨a, t, rfl⟩
    have hd : isDigitB d = true := printNat_digits m d (by rw [hds]; exact List.mem_cons_self d ds)
    have hall : ∀ b ∈ ds, isDigitB b = true := by
      intro b hb
      exact printNat_digits m b (by rw [hds]; exact List.mem_cons_of_mem d hb)
    have hd45 : ¬ d = 45 := by
      simp only [isDigitB, Bool.and_eq_true, decide_eq_true_eq] at hd
      omega
    show parseNum (printNat m ++ r) = some ((m : Int), r)
    rw [hds]
    simp only [List.cons_append, parseNum, hd45, if_false, hd, if_true]
    rw [parseDigits_digits ds hall r (d - 48) hr]
    have : valAcc (d - 48) ds = m := by
      have h0 := valAcc_printNat m
      rw [hds, valAcc_cons] at h0
      simpa using h0
    simp [this]
  | negSucc m =>
    obtain ⟨d, ds, hds⟩ : ∃ d ds, printNat (m+1) = d :: ds := by
      cases h : printNat (m+1) with
      | nil => exact absurd h (printNat_ne_nil (m+1))
      | cons a t => exact ⟨a, t, rfl⟩
    have hd : isDigitB d = true := printNat_digits (m+1) d (by rw [hds]; exact List.mem_cons_self d ds)
    have hall : ∀ b ∈ ds, isDigitB b = true := by
      intro b hb
      exact printNat_digits (m+1) b (by rw [hds]; exact List.mem_cons_of_mem d hb)
    show parseNum ((45 :: printNat (m+1)) ++ r) = some (Int.negSucc m, r)
    rw [hds]
    simp only [List.cons_append, parseNum, if_pos rfl, hd, if_true]
    rw [parseDigits_digits ds hall r (d - 48) hr]
    have : valAcc (d - 48) ds = m + 1 := by
      have h0 := valAcc_printNat (m+1)
      rw [hds, valAcc_cons] at h0
      simpa using h0
    simp only [this]
    rw [Int.negSucc_eq]
    simp

theorem fsize_pos (j : Json) : 1 ≤ fsize j := by
  cases j <;> simp [fsize]

theorem fsizeA_pos (l : JArr) : 1 ≤ fsizeA l := by
  cases l <;> simp [fsizeA]

theorem fsizeS_pos (l : JArr) : 1 ≤ fsizeS l := by
  cases l <;> simp [fsizeS]

theorem fsizeO_pos (m : JObj) : 1 ≤ fsizeO m := by
  cases m <;> simp [fsizeO]

theorem fsizeOS_pos (m : JObj) : 1 ≤ fsizeOS m := by
  cases m <;> simp [fsizeOS]

/-- The first byte of a printed JSON value: never whitespace, never a
closing bracket or separator, so the surrounding parser dispatch is
unambiguous. -/
theorem dumps_head_spec (j : Json) :
    ∃ c s', dumps j = c :: s' ∧ isWsB c = false ∧ ¬ c = 93 := by
  cases j with
  | null => exact ⟨110, _, rfl, by decide, by decide⟩
  | bool b => cases b with
    | true => exact ⟨116, _, rfl, by decide, by decide⟩
    | false => exact ⟨102, _, rfl, by decide, by decide⟩
  | str s => exact ⟨34, _, rfl, by decide, by decide⟩
  | arr l => exact ⟨91, _, rfl, by decide, by decide⟩
  | obj m => exact ⟨123, _, rfl, by decide, by decide⟩
  | num n =>
    cases n with
    | ofNat m =>
      obtain ⟨d, ds, hds⟩ : ∃ d ds, printNat m = d :: ds := by
        cases h : printNat m with
        | nil => exact absurd h (printNat_ne_nil m)
        | cons a t => exact ⟨a, t, rfl⟩
      have hd : isDigitB d = true := printNat_digits m d (by rw [hds]; exact List.mem_cons_self d ds)
      simp only [isDigitB, Bool.and_eq_true, decide_eq_true_eq] at hd
      refine ⟨d, ds, hds, ?_, by omega⟩
      simp only [isWsB, Bool.or_eq_false_iff, decide_eq_false_iff_not]
      omega
    | negSucc m =>
      exact ⟨45, _, rfl, by decide, by decide⟩

theorem headNotDigit_ASep (t : JArr) (r : List Nat) :
    headNotDigit (dumpsASep t ++ 93 :: r) = true := by
  cases t <;> simp [dumpsASep, headNotDigit, isDigitB]

theorem headNotDigit_OSep (t : JObj) (r : List Nat) :
    headNotDigit (dumpsOSep t ++ 125 :: r) = true := by
  cases t <;> simp [dumpsOSep, headNotDigit, isDigitB]

theorem parseValue_ws_cons {b : Nat} (h : isWsB b = true) (f : Nat) (s : List Nat) :
    parseValue (f+1) (b :: s) = parseValue (f+1) s := by
  rw [parseValue, parseValue, skipWs, if_pos h]

theorem parseMember_ws_cons {b : Nat} (h : isWsB b = true) (f : Nat) (s : List Nat) :
    parseMember (f+1) (b :: s) = parseMember (f+1) s := by
  rw [parseMember, parseMember, skipWs, if_pos h]


/- Printer-parser roundtrip: parsing the printed form of a valid JSON
value (followed by any non-digit-headed remainder) succeeds and returns
exactly that value.  Proved by mutual structural induction over the
value, with the fuel bounded below by `fsize`. -/
mutual
theorem parseValue_dumps (j : Json) (hv : jvalid j = true) :
    ∀ f r, fsize j ≤ f → headNotDigit r = true →
      parseValue f (dumps j ++ r) = some (j, r) := by
  intro f r hf hr
  cases f with
  | zero => exact absurd hf (by have := fsize_pos j; omega)
  | succ f =>
    cases j with
    | null => simp [dumps, parseValue, skipWs, isWsB, dropLit]
    | bool b => cases b <;> simp [dumps, parseValue, skipWs, isWsB, dropLit]
    | str s =>
      have hs : strValid s = true := by simpa [jvalid] using hv
      have hin : dumps (.str s) ++ r = 34 :: (s ++ 34 :: r) := by
        simp [dumps]
      rw [hin, parseValue]
      simp only [skipWs_cons_of_not_ws (by decide : isWsB 34 = false)]
      simp [parseStr_append hs]
    | num n =>
      rcases n with m | m
      · obtain ⟨d, ds, hds⟩ : ∃ d ds, printNat m = d :: ds := by
          cases h : printNat m with
          | nil => exact absurd h (printNat_ne_nil m)
          | cons a t => exact ⟨a, t, rfl⟩
        have hd : isDigitB d = true :=
          printNat_digits m d (by rw [hds]; exact List.mem_cons_self d ds)
        have hdb : 48 ≤ d ∧ d ≤ 57 := by
          simpa [isDigitB] using hd
        have hin : dumps (.num (Int.ofNat m)) ++ r = d :: (ds ++ r) := by
          show printInt (Int.ofNat m) ++ r = d :: (ds ++ r)
          simp [printInt, hds]
        have hws : isWsB d = false := by
          simp only [isWsB, Bool.or_eq_false_iff, decide_eq_false_iff_not]
          omega
        have h110 : ¬ d = 110 := by omega
        have h116 : ¬ d = 116 := by omega
        have h102 : ¬ d = 102 := by omega
        have h34 : ¬ d = 34 := by omega
        have h91 : ¬ d = 91 := by omega
        have h123 : ¬ d = 123 := by omega
        have hnum : (decide (d = 45) || isDigitB d) = true := by simp [hd]
        have hback : d :: (ds ++ r) = printInt (Int.ofNat m) ++ r := by
          simp [printInt, hds]
        rw [hin, parseValue]
        simp only [skipWs_cons_of_not_ws hws]
        simp only [h110, h116, h102, h34, h91, h123, hnum, if_false, if_true,
          ite_false, ite_true]
        rw [hback]
        simp [parseNum_print (m : Int) r hr]
      · have hin : dumps (.num (Int.negSucc m)) ++ r = 45 :: (printNat (m+1) ++ r) := by
          simp [dumps, printInt]
        have hback : (45 :: (printNat (m+1) ++ r) : List Nat) = printInt (Int.negSucc m) ++ r := by
          simp [printInt]
        rw [hin, parseValue]
        simp only [skipWs_cons_of_not_ws (by decide : isWsB 45 = false)]
        simp only [hback, parseNum_print (Int.negSucc m) r hr]
        simp
    | arr l =>
      have hva : avalid l = true := by simpa [jvalid] using hv
      have hfa : fsizeA l ≤ f := by
        simp only [fsize] at hf; omega
      have hin : dumps (.arr l) ++ r = 91 :: (dumpsA l ++ 93 :: r) := by
        simp [dumps]
      rw [hin, parseValue]
      simp only [skipWs_cons_of_not_ws (by decide : isWsB 91 = false)]
      simp [parseElems_dumps l hva f r hfa]
    | obj m =>
      have hvo : ovalid m = true := by simpa [jvalid] using hv
      have hfo : fsizeO m ≤ f := by
        simp only [fsize] at hf; omega
      have hin : dumps (.obj m) ++ r = 123 :: (dumpsO m ++ 125 :: r) := by
        simp [dumps]
      rw [hin, parseValue]
      simp only [skipWs_cons_of_not_ws (by decide : isWsB 123 = false)]
      simp [parseMembers_dumps m hvo f r hfo]
termination_by sizeOf j
theorem parseElems_dumps (l : JArr) (hv : avalid l = true) :
    ∀ f r, fsizeA l ≤ f → parseElems f (dumpsA l ++ 93 :: r) = some (l, r) := by
  intro f r hf
  cases f with
  | zero => exact absurd hf (by have := fsizeA_pos l; omega)
  | succ f =>
    cases l with
    | nil => simp [dumpsA, parseElems, skipWs, isWsB]
    | cons h t =>
      have hvh : jvalid h = true := by
        simp only [avalid, Bool.and_eq_true] at hv; exact hv.1
      have hvt : avalid t = true := by
        simp only [avalid, Bool.and_eq_true] at hv; exact hv.2
      have hfh : fsize h ≤ f := by
        simp only [fsizeA] at hf
        have := le_max_left (fsize h) (fsizeS t); omega
      have hft : fsizeS t ≤ f := by
        simp only [fsizeA] at hf
        have := le_max_right (fsize h) (fsizeS t); omega
      obtain ⟨c, s', hc, hcws, hc93⟩ := dumps_head_spec h
      have hin : dumpsA (.cons h t) ++ 93 :: r = c :: (s' ++ (dumpsASep t ++ 93 :: r)) := by
        simp [dumpsA, hc]
      have hpv : parseValue f (c :: (s' ++ (dumpsASep t ++ 93 :: r)))
          = some (h, dumpsASep t ++ 93 :: r) := by
        have hback : c :: (s' ++ (dumpsASep t ++ 93 :: r))
            = dumps h ++ (dumpsASep t ++ 93 :: r) := by
          rw [hc]; simp
        rw [hback]
        exact parseValue_dumps h hvh f _ hfh (headNotDigit_ASep t r)
      rw [hin, parseElems]
      simp only [skipWs_cons_of_not_ws hcws]
      simp [hc93, hpv, parseElemsRest_dumps t hvt f r hft]
termination_by sizeOf l
theorem parseElemsRest_dumps (l : JArr) (hv : avalid l = true) :
    ∀ f r, fsizeS l ≤ f → parseElemsRest f (dumpsASep l ++ 93 :: r) = some (l, r) := by
  intro f r hf
  cases f with
  | zero => exact absurd hf (by have := fsizeS_pos l; omega)
  | succ f =>
    cases l with
    | nil => simp [dumpsASep, parseElemsRest, skipWs, isWsB]
    | cons h t =>
      have hvh : jvalid h = true := by
        simp only [avalid, Bool.and_eq_true] at hv; exact hv.1
      have hvt : avalid t = true := by
        simp only [avalid, Bool.and_eq_true] at hv; exact hv.2
      have hfh : fsize h ≤ f := by
        simp only [fsizeS] at hf
        have := le_max_left (fsize h) (fsizeS t); omega
      have hft : fsizeS t ≤ f := by
        simp only [fsizeS] at hf
        have := le_max_right (fsize h) (fsizeS t); omega
      have hin : dumpsASep (.cons h t) ++ 93 :: r
          = 44 :: 32 :: (dumps h ++ (dumpsASep t ++ 93 :: r)) := by
        simp [dumpsASep]
      rw [hin, parseElemsRest]
      simp only [skipWs_cons_of_not_ws (by decide : isWsB 44 = false)]
      cases f with
      | zero => exact absurd hfh (by have := fsize_pos h; omega)
      | succ g =>
        have hpv : parseValue (g+1) (32 :: (dumps h ++ (dumpsASep t ++ 93 :: r)))
            = some (h, dumpsASep t ++ 93 :: r) := by
          rw [parseValue_ws_cons (by decide : isWsB 32 = true)]
          exact parseValue_dumps h hvh (g+1) _ hfh (headNotDigit_ASep t r)
        simp [hpv, parseElemsRest_dumps t hvt (g+1) r hft]
termination_by sizeOf l
theorem parseMembers_dumps (m : JObj) (hv : ovalid m = true) :
    ∀ f r, fsizeO m ≤ f → parseMembers f (dumpsO m ++ 125 :: r) = some (m, r) := by
  intro f r hf
  cases f with
  | zero => exact absurd hf (by have := fsizeO_pos m; omega)
  | succ f =>
    cases m with
    | nil => simp [dumpsO, parseMembers, skipWs, isWsB]
    | cons k v t =>
      have hk : strValid k = true := by
        simp only [ovalid, Bool.and_eq_true] at hv; exact hv.1.1
      have hvv : jvalid v = true := by
        simp only [ovalid, Bool.and_eq_true] at hv; exact hv.1.2
      have hvt : ovalid t = true := by
        simp only [ovalid, Bool.and_eq_true] at hv; exact hv.2
      have hfv : 1 + fsize v ≤ f := by
        simp only [fsizeO] at hf
        have := le_max_left (1 + fsize v) (fsizeOS t); omega
      have hft : fsizeOS t ≤ f := by
        simp only [fsizeO] at hf
        have := le_max_right (1 + fsize v) (fsizeOS t); omega
      have hin : dumpsO (.cons k v t) ++ 125 :: r
          = 34 :: (k ++ 34 :: 58 :: 32 :: (dumps v ++ (dumpsOSep t ++ 125 :: r))) := by
        simp [dumpsO]
      have hpm : parseMember f (34 :: (k ++ 34 :: 58 :: 32 :: (dumps v ++ (dumpsOSep t ++ 125 :: r))))
          = some ((k, v), dumpsOSep t ++ 125 :: r) := by
        cases f with
        | zero => exact absurd hfv (by omega)
        | succ g =>
          rw [parseMember]
          simp only [skipWs_cons_of_not_ws (by decide : isWsB 34 = false)]
          cases g with
          | zero => exact absurd hfv (by have := fsize_pos v; omega)
          | succ g2 =>
            have hpv : parseValue (g2+1) (32 :: (dumps v ++ (dumpsOSep t ++ 125 :: r)))
                = some (v, dumpsOSep t ++ 125 :: r) := by
              rw [parseValue_ws_cons (by decide : isWsB 32 = true)]
              exact parseValue_dumps v hvv (g2+1) _ (by omega) (headNotDigit_OSep t r)
            simp [parseStr_append hk, skipWs, isWsB, hpv]
      rw [hin, parseMembers]
      simp only [skipWs_cons_of_not_ws (by decide : isWsB 34 = false)]
      simp [hpm, parseMembersRest_dumps t hvt f r hft]
termination_by sizeOf m
theorem parseMembersRest_dumps (m : JObj) (hv : ovalid m = true) :
    ∀ f r, fsizeOS m ≤ f → parseMembersRest f (dumpsOSep m ++ 125 :: r) = some (m, r) := by
  intro f r hf
  cases f with
  | zero => exact absurd hf (by have := fsizeOS_pos m; omega)
  | succ f =>
    cases m with
    | nil => simp [dumpsOSep, parseMembersRest, skipWs, isWsB]
    | cons k v t =>
      have hk : strValid k = true := by
        simp only [ovalid, Bool.and_eq_true] at hv; exact hv.1.1
      have hvv : jvalid v = true := by
        simp only [ovalid, Bool.and_eq_true] at hv; exact hv.1.2
      have hvt : ovalid t = true := by
        simp only [ovalid, Bool.and_eq_true] at hv; exact hv.2
      have hfv : 1 + fsize v ≤ f := by
        simp only [fsizeOS] at hf
        have := le_max_left (1 + fsize v) (fsizeOS t); omega
      have hft : fsizeOS t ≤ f := by
        simp only [fsizeOS] at hf
        have := le_max_right (1 + fsize v) (fsizeOS t); omega
      have hin : dumpsOSep (.cons k v t) ++ 125 :: r
          = 44 :: 32 :: (34 :: (k ++ 34 :: 58 :: 32 :: (dumps v ++ (dumpsOSep t ++ 125 :: r)))) := by
        simp [dumpsOSep]
      rw [hin, parseMembersRest]
      simp only [skipWs_cons_of_not_ws (by decide : isWsB 44 = false)]
      cases f with
      | zero => exact absurd hfv (by have := fsize_pos v; omega)
      | succ g =>
        have hpm : parseMember (g+1)
            (32 :: (34 :: (k ++ 34 :: 58 :: 32 :: (dumps v ++ (dumpsOSep t ++ 125 :: r)))))
            = some ((k, v), dumpsOSep t ++ 125 :: r) := by
          rw [parseMember_ws_cons (by decide : isWsB 32 = true), parseMember]
          simp only [skipWs_cons_of_not_ws (by decide : isWsB 34 = false)]
          cases g with
          | zero => exact absurd hfv (by have := fsize_pos v; omega)
          | succ g2 =>
            have hpv : parseValue (g2+1) (32 :: (dumps v ++ (dumpsOSep t ++ 125 :: r)))
                = some (v, dumpsOSep t ++ 125 :: r) := by
              rw [parseValue_ws_cons (by decide : isWsB 32 = true)]
              exact parseValue_dumps v hvv (g2+1) _ (by omega) (headNotDigit_OSep t r)
            simp [parseStr_append hk, skipWs, isWsB, hpv]
        simp [hpm, parseMembersRest_dumps t hvt (g+1) r hft]
termination_by sizeOf m
end

theorem one_le_dumps_length (j : Json) : 1 ≤ (dumps j).length := by
  obtain ⟨c, s', hc, -, -⟩ := dumps_head_spec j
  simp [hc]

/- Fuel bounds: the fuel needed to reparse a printed value is at most the
printed length (so `pyLoads`, which uses length-plus-one fuel, always has
enough). -/
mutual
theorem fsize_le (j : Json) : fsize j ≤ (dumps j).length := by
  cases j with
  | null => simp [fsize, dumps]
  | bool b => cases b <;> simp [fsize, dumps]
  | str s => simp [fsize, dumps]
  | num n =>
    cases n with
    | ofNat m =>
      have h1 : printNat m ≠ [] := printNat_ne_nil m
      have h2 : 1 ≤ (printNat m).length := by
        cases h : printNat m with
        | nil => exact absurd h h1
        | cons a t => simp
      simp only [fsize, dumps, printInt]
      omega
    | negSucc m => simp [fsize, dumps, printInt]
  | arr l =>
    have h1 := fsizeA_le l
    simp only [fsize, dumps, List.length_cons, List.length_append, List.length_singleton]
    omega
  | obj m =>
    have h1 := fsizeO_le m
    simp only [fsize, dumps, List.length_cons, List.length_append, List.length_singleton]
    omega
theorem fsizeA_le (l : JArr) : fsizeA l ≤ (dumpsA l).length + 1 := by
  cases l with
  | nil => simp [fsizeA, dumpsA]
  | cons h t =>
    have h1 := fsize_le h
    have h2 := fsizeS_le t
    have h3 := one_le_dumps_length h
    have hm : max (fsize h) (fsizeS t) ≤ (dumps h).length + (dumpsASep t).length := by
      apply max_le <;> omega
    simp only [fsizeA, dumpsA, List.length_append]
    omega
theorem fsizeS_le (l : JArr) : fsizeS l ≤ (dumpsASep l).length + 1 := by
  cases l with
  | nil => simp [fsizeS, dumpsASep]
  | cons h t =>
    have h1 := fsize_le h
    have h2 := fsizeS_le t
    have hm : max (fsize h) (fsizeS t) ≤ (dumps h).length + (dumpsASep t).length + 1 := by
      apply max_le <;> omega
    simp only [fsizeS, dumpsASep, List.length_cons, List.length_append]
    omega
theorem fsizeO_le (m : JObj) : fsizeO m ≤ (dumpsO m).length + 1 := by
  cases m with
  | nil => simp [fsizeO, dumpsO]
  | cons k v t =>
    have h1 := fsize_le v
    have h2 := fsizeOS_le t
    have hm : max (1 + fsize v) (fsizeOS t) ≤ (dumps v).length + (dumpsOSep t).length + 1 := by
      apply max_le <;> omega
    simp only [fsizeO, dumpsO, List.length_cons, List.length_append]
    omega
theorem fsizeOS_le (m : JObj) : fsizeOS m ≤ (dumpsOSep m).length + 1 := by
  cases m with
  | nil => simp [fsizeOS, dumpsOSep]
  | cons k v t =>
    have h1 := fsize_le v
    have h2 := fsizeOS_le t
    have hm : max (1 + fsize v) (fsizeOS t) ≤ (dumps v).length + (dumpsOSep t).length + 2 := by
      apply max_le <;> omega
    simp only [fsizeOS, dumpsOSep, List.length_cons, List.length_append]
    omega
end

/- Every byte of a printed valid value is printable ASCII (32..126): in
particular never a null byte and never at or above 128, which drives both
the UTF-8-decode model and the null-scan of the shared-memory reader. -/
mutual
theorem dumps_range (j : Json) (hv : jvalid j = true) :
    ∀ b ∈ dumps j, 32 ≤ b ∧ b ≤ 126 := by
  cases j with
  | null => intro b hb; simp [dumps] at hb; omega
  | bool bb => cases bb <;> (intro b hb; simp [dumps] at hb; omega)
  | str s =>
    have hs : strValid s = true := by simpa [jvalid] using hv
    intro b hb
    simp only [dumps] at hb
    rcases List.mem_cons.mp hb with h | h
    · omega
    rcases List.mem_append.mp h with h2 | h2
    · have := (List.all_eq_true.mp hs) b h2
      simp only [safeByte, Bool.and_eq_true, decide_eq_true_eq] at this
      omega
    · simp at h2; omega
  | num n =>
    intro b hb
    cases n with
    | ofNat m =>
      have : isDigitB b = true := printNat_digits m b (by simpa [dumps, printInt] using hb)
      simp only [isDigitB, Bool.and_eq_true, decide_eq_true_eq] at this
      omega
    | negSucc m =>
      simp only [dumps, printInt, List.mem_cons] at hb
      rcases hb with h | h
      · omega
      · have : isDigitB b = true := printNat_digits (m+1) b h
        simp only [isDigitB, Bool.and_eq_true, decide_eq_true_eq] at this
        omega
  | arr l =>
    have hva : avalid l = true := by simpa [jvalid] using hv
    intro b hb
    simp only [dumps] at hb
    rcases List.mem_cons.mp hb with h | h
    · omega
    rcases List.mem_append.mp h with h2 | h2
    · exact dumps_rangeA l hva b h2
    · simp at h2; omega
  | obj m =>
    have hvo : ovalid m = true := by simpa [jvalid] using hv
    intro b hb
    simp only [dumps] at hb
    rcases List.mem_cons.mp hb with h | h
    · omega
    rcases List.mem_append.mp h with h2 | h2
    · exact dumps_rangeO m hvo b h2
    · simp at h2; omega
theorem dumps_rangeA (l : JArr) (hv : avalid l = true) :
    ∀ b ∈ dumpsA l, 32 ≤ b ∧ b ≤ 126 := by
  cases l with
  | nil => intro b hb; simp [dumpsA] at hb
  | cons h t =>
    have hvh : jvalid h = true := by
      simp only [avalid, Bool.and_eq_true] at hv; exact hv.1
    have hvt : avalid t = true := by
      simp only [avalid, Bool.and_eq_true] at hv; exact hv.2
    intro b hb
    simp only [dumpsA, List.mem_append] at hb
    rcases hb with hh | hh
    · exact dumps_range h hvh b hh
    · exact dumps_rangeASep t hvt b hh
theorem dumps_rangeASep (l : JArr) (hv : avalid l = true) :
    ∀ b ∈ dumpsASep l, 32 ≤ b ∧ b ≤ 126 := by
  cases l with
  | nil => intro b hb; simp [dumpsASep] at hb
  | cons h t =>
    have hvh : jvalid h = true := by
      simp only [avalid, Bool.and_eq_true] at hv; exact hv.1
    have hvt : avalid t = true := by
      simp only [avalid, Bool.and_eq_true] at hv; exact hv.2
    intro b hb
    simp only [dumpsASep, List.mem_cons, List.mem_append] at hb
    rcases hb with h1 | h1 | h1 | h1
    · omega
    · omega
    · exact dumps_range h hvh b h1
    · exact dumps_rangeASep t hvt b h1
theorem dumps_rangeO (m : JObj) (hv : ovalid m = true) :
    ∀ b ∈ dumpsO m, 32 ≤ b ∧ b ≤ 126 := by
  cases m with
  | nil => intro b hb; simp [dumpsO] at hb
  | cons k v t =>
    have hk : strValid k = true := by
      simp only [ovalid, Bool.and_eq_true] at hv; exact hv.1.1
    have hvv : jvalid v = true := by
      simp only [ovalid, Bool.and_eq_true] at hv; exact hv.1.2
    have hvt : ovalid t = true := by
      simp only [ovalid, Bool.and_eq_true] at hv; exact hv.2
    intro b hb
    simp only [dumpsO, List.mem_cons, List.mem_append] at hb
    rcases hb with h1 | h1 | h1 | h1 | h1 | h1 | h1
    · omega
    · have := (List.all_eq_true.mp hk) b h1
      simp only [safeByte, Bool.and_eq_true, decide_eq_true_eq] at this
      omega
    · omega
    · omega
    · omega
    · exact dumps_range v hvv b h1
    · exact dumps_rangeOSep t hvt b h1
theorem dumps_rangeOSep (m : JObj) (hv : ovalid m = true) :
    ∀ b ∈ dumpsOSep m, 32 ≤ b ∧ b ≤ 126 := by
  cases m with
  | nil => intro b hb; simp [dumpsOSep] at hb
  | cons k v t =>
    have hk : strValid k = true := by
      simp only [ovalid, Bool.and_eq_true] at hv; exact hv.1.1
    have hvv : jvalid v = true := by
      simp only [ovalid, Bool.and_eq_true] at hv; exact hv.1.2
    have hvt : ovalid t = true := by
      simp only [ovalid, Bool.and_eq_true] at hv; exact hv.2
    intro b hb
    simp only [dumpsOSep, List.mem_cons, List.mem_append] at hb
    rcases hb with h1 | h1 | h1 | h1 | h1 | h1 | h1 | h1 | h1
    · omega
    · omega
    · omega
    · have := (List.all_eq_true.mp hk) b h1
      simp only [safeByte, Bool.and_eq_true, decide_eq_true_eq] at this
      omega
    · omega
    · omega
    · omega
    · exact dumps_range v hvv b h1
    · exact dumps_rangeOSep t hvt b h1
end

/-- Parsing the whole printed document of a valid value, as `json.loads`
does, returns that value. -/
theorem pyLoads_dumps (j : Json) (hv : jvalid j = true) : pyLoads (dumps j) = some j := by
  have h1 : parseValue ((dumps j).length + 1) (dumps j ++ []) = some (j, []) :=
    parseValue_dumps j hv _ [] (by have := fsize_le j; omega) rfl
  rw [List.append_nil] at h1
  unfold pyLoads
  rw [h1]
  simp [skipWs]

/-- Message types for IPC communication (`MessageType` in
`src/utils/protocol.py`), with wire tags 1..8. -/
inductive MessageType where
  | MARKET_DATA
  | NEWS_SENTIMENT
  | TRADING_SIGNAL
  | ORDER
  | TRADE_EXECUTION
  | ORDERBOOK_UPDATE
  | HEARTBEAT
  | SHUTDOWN
  deriving DecidableEq

/-- The integer wire tag of a message type (`MessageType.value`). -/
def MessageType.value : MessageType → Int
  | .MARKET_DATA => 1
  | .NEWS_SENTIMENT => 2
  | .TRADING_SIGNAL => 3
  | .ORDER => 4
  | .TRADE_EXECUTION => 5
  | .ORDERBOOK_UPDATE => 6
  | .HEARTBEAT => 7
  | .SHUTDOWN => 8

/-- Looking a tag back up, as the `MessageType(msg_dict['type'])` enum
constructor does; unknown tags raise `ValueError` in Python, modelled as
`none`. -/
def messageTypeOfInt (t : Int) : Option MessageType :=
  if t = 1 then some .MARKET_DATA
  else if t = 2 then some .NEWS_SENTIMENT
  else if t = 3 then some .TRADING_SIGNAL
  else if t = 4 then some .ORDER
  else if t = 5 then some .TRADE_EXECUTION
  else if t = 6 then some .ORDERBOOK_UPDATE
  else if t = 7 then some .HEARTBEAT
  else if t = 8 then some .SHUTDOWN
  else none

/-- A protocol message: a type tag plus a JSON payload (`Message` in
`src/utils/protocol.py`). -/
structure Message where
  msg_type : MessageType
  data : Json
  deriving DecidableEq

/-- The bytes of the ASCII key "type". -/
def typeKey : List Nat := [116, 121, 112, 101]

/-- The bytes of the ASCII key "data". -/
def dataKey : List Nat := [100, 97, 116, 97]

/-- The JSON document `Message.serialize` builds: the dict
`{'type': tag, 'data': payload}` in insertion order. -/
def msgJson (m : Message) : Json :=
  .obj (.cons typeKey (.num m.msg_type.value) (.cons dataKey m.data .nil))

/-- The frame body: `json.dumps` of the message dict, UTF-8 encoded
(identity on the ASCII sublanguage). -/
def serializeBody (m : Message) : List Nat := dumps (msgJson m)

/-- Big-endian 4-byte encoding of a length, as `struct.pack` with format
`>I` produces (for lengths below 2^32, which `struct.pack` requires). -/
def pack32 (n : Nat) : List Nat :=
  [n / 2^24 % 256, n / 2^16 % 256, n / 2^8 % 256, n % 256]

/-- Big-endian 4-byte decoding (`struct.unpack` with format `>I`). -/
def unpack32 (bs : List Nat) : Nat :=
  match bs with
  | [a, b, c, d] => ((a * 256 + b) * 256 + c) * 256 + d
  | _ => 0

/-- Model of `Message.serialize`: length-prefixed frame around the JSON body. -/
def serialize (m : Message) : List Nat :=
  pack32 (serializeBody m).length ++ serializeBody m

/-- Model of `bytes.decode('utf-8')` restricted to the ASCII range the
protocol actually produces: bytes at or above 128 start multi-byte UTF-8
sequences that never arise from this code and are modelled as a decode
failure. -/
def utf8DecodeAscii (bs : List Nat) : Option (List Nat) :=
  if bs.all (fun b => b < 128) then some bs else none

/-- Python dict construction from parsed JSON members: later duplicate
keys overwrite earlier ones, so lookup returns the last binding. -/
def lookupLast : JObj → List Nat → Option Json
  | .nil, _ => none
  | .cons k v t, key =>
    match lookupLast t key with
    | some r => some r
    | none => if k = key then some v else none

/-- Model of `Message.deserialize`: decode UTF-8, `json.loads`, then read
`msg_dict['type']` and `msg_dict['data']` and look the tag up as a
`MessageType`.  Every Python exception path (bad UTF-8, malformed JSON,
missing key, non-dict document, unknown tag) is modelled as `none`.  The
payload is returned as-is: the code performs no shape validation.
(Python would additionally accept a JSON boolean tag via bool-to-int
coercion; that quirk is outside the modelled number sublanguage.) -/
def deserialize (bs : List Nat) : Option Message :=
  match utf8DecodeAscii bs with
  | none => none
  | some cs =>
    match pyLoads cs with
    | some (Json.obj members) =>
      match lookupLast members typeKey, lookupLast members dataKey with
      | some (Json.num t), some d =>
        match messageTypeOfInt t with
        | some mt => some ⟨mt, d⟩
        | none => none
      | _, _ => none
    | _ => none

theorem msgJson_valid (m : Message) (hv : jvalid m.data = true) :
    jvalid (msgJson m) = true := by
  simp [msgJson, jvalid, ovalid, strValid, typeKey, dataKey, safeByte, hv]

theorem serializeBody_ascii (m : Message) (hv : jvalid m.data = true) :
    (serializeBody m).all (fun b => b < 128) = true := by
  rw [List.all_eq_true]
  intro b hb
  have := dumps_range (msgJson m) (msgJson_valid m hv) b hb
  simp only [decide_eq_true_eq]
  omega

theorem messageTypeOfInt_value (mt : MessageType) :
    messageTypeOfInt mt.value = some mt := by
  cases mt <;> rfl

/-- Core roundtrip at the body level: `deserialize` of the serialized
body returns the original message, for any valid payload. -/
theorem deserialize_serializeBody (m : Message) (hv : jvalid m.data = true) :
    deserialize (serializeBody m) = some m := by
  unfold deserialize utf8DecodeAscii
  rw [if_pos (serializeBody_ascii m hv)]
  show (match pyLoads (serializeBody m) with
    | some (Json.obj members) =>
      match lookupLast members typeKey, lookupLast members dataKey with
      | some (Json.num t), some d =>
        match messageTypeOfInt t with
        | some mt => some (Message.mk mt d)
        | none => none
      | _, _ => none
    | _ => none) = some m
  rw [show serializeBody m = dumps (msgJson m) from rfl,
    pyLoads_dumps (msgJson m) (msgJson_valid m hv)]
  simp only [msgJson]
  simp [lookupLast, typeKey, dataKey, messageTypeOfInt_value]

/-- Evaluation of `deserialize` on any printed two-key message document:
it is determined by the `type`/`data` lookups alone. -/
theorem deserialize_dumps_obj (members : JObj) (hv : ovalid members = true) :
    deserialize (dumps (.obj members)) =
      match lookupLast members typeKey, lookupLast members dataKey with
      | some (Json.num t), some d =>
        (match messageTypeOfInt t with
         | some mt => some (Message.mk mt d)
         | none => none)
      | _, _ => none := by
  have hvj : jvalid (.obj members) = true := by simpa [jvalid] using hv
  have hascii : (dumps (Json.obj members)).all (fun b => b < 128) = true := by
    rw [List.all_eq_true]
    intro b hb
    have := dumps_range _ hvj b hb
    simp only [decide_eq_true_eq]
    omega
  unfold deserialize utf8DecodeAscii
  rw [if_pos hascii]
  show (match pyLoads (dumps (Json.obj members)) with
    | some (Json.obj members) =>
      match lookupLast members typeKey, lookupLast members dataKey with
      | some (Json.num t), some d =>
        match messageTypeOfInt t with
        | some mt => some (Message.mk mt d)
        | none => none
      | _, _ => none
    | _ => none) = _
  rw [pyLoads_dumps _ hvj]

/-- C1: for every valid message (a MessageKind tag together with a
payload dictionary), deserializing the body of `serialize` (the bytes
after the 4-byte length prefix) yields a message with the same kind and
the same payload. -/
theorem C1_roundtrip (mt : MessageType) (payload : JObj) (hv : ovalid payload = true) :
    deserialize ((serialize (Message.mk mt (.obj payload))).drop 4)
      = some (Message.mk mt (.obj payload)) := by
  have hdrop : (serialize (Message.mk mt (.obj payload))).drop 4
      = serializeBody (Message.mk mt (.obj payload)) := by
    simp [serialize, pack32]
  rw [hdrop]
  exact deserialize_serializeBody _ (by simpa [jvalid] using hv)

/-- A concrete payload dictionary for witnesses: the bytes of the ASCII
document with keys "symbol" (value "AAPL") and "price" (value 150). -/
def payloadEx : JObj :=
  .cons [115, 121, 109, 98, 111, 108] (.str [65, 65, 80, 76])
    (.cons [112, 114, 105, 99, 101] (.num 150) .nil)

/-- C1 witness: the roundtrip at a concrete market-data message. -/
theorem C1_roundtrip_witness :
    deserialize ((serialize (Message.mk .MARKET_DATA (.obj payloadEx))).drop 4)
      = some (Message.mk .MARKET_DATA (.obj payloadEx)) :=
  C1_roundtrip .MARKET_DATA payloadEx (by decide)

/-- C8 counterexample: the claim says a recognized tag with a payload of
the wrong shape for its kind is rejected.  The code performs no payload
shape validation: a MarketData-tagged body whose payload is the empty
dictionary (lacking symbol, bid/ask levels, price and volume) is
returned as a `Message`, not rejected. -/
theorem C8_counterexample :
    deserialize (serializeBody (Message.mk .MARKET_DATA (.obj .nil)))
      = some (Message.mk .MARKET_DATA (.obj .nil)) := by
  exact deserialize_serializeBody _ (by decide)

/-- C8 (amended): `deserialize` rejects bodies whose integer tag is not a
recognized MessageKind, but performs no payload-shape validation — any
recognized tag paired with any JSON payload whatsoever is returned as a
`Message` carrying that payload unchanged. -/
theorem C8_no_shape_validation (t : Int) (payload : Json) (hv : jvalid payload = true) :
    (∀ mt, messageTypeOfInt t = some mt →
      deserialize (dumps (.obj (.cons typeKey (.num t) (.cons dataKey payload .nil))))
        = some (Message.mk mt payload)) ∧
    (messageTypeOfInt t = none →
      deserialize (dumps (.obj (.cons typeKey (.num t) (.cons dataKey payload .nil))))
        = none) := by
  have h := deserialize_dumps_obj (.cons typeKey (.num t) (.cons dataKey payload .nil))
    (by simp [ovalid, jvalid, strValid, typeKey, dataKey, safeByte, hv])
  simp [lookupLast, typeKey, dataKey] at h
  constructor
  · intro mt hmt
    simp only [hmt] at h
    simpa using h
  · intro hmt
    simp only [hmt] at h
    simpa using h

/-- C8 witness: tag 1 with an empty-dictionary payload is accepted as
MarketData; tag 9 is rejected. -/
theorem C8_no_shape_validation_witness :
    deserialize (dumps (.obj (.cons typeKey (.num 1) (.cons dataKey (.obj .nil) .nil))))
      = some (Message.mk .MARKET_DATA (.obj .nil)) ∧
    deserialize (dumps (.obj (.cons typeKey (.num 9) (.cons dataKey (.obj .nil) .nil))))
      = none :=
  ⟨(C8_no_shape_validation 1 (.obj .nil) (by decide)).1 .MARKET_DATA (by decide),
   (C8_no_shape_validation 9 (.obj .nil) (by decide)).2 (by decide)⟩

/-- A fragmented byte stream: the sequence of chunks that successive
`sock.recv` calls deliver.  An exhausted list (or an empty chunk) models
a closed peer, where `recv` returns an empty byte string. -/
abbrev Chunks := List (List Nat)

/-- The exact-count receive loop of `Message.read_message`: repeatedly
`recv` until `n` bytes have arrived, failing (`ConnectionError`) if the
stream closes first.  `recv k` returns at most `k` bytes from the front
chunk, leaving the remainder of that chunk in the stream.  The body loop
caps each request at 4096 bytes (`capped = true`); the 4-byte length
loop requests exactly the missing count (`capped = false`). -/
def recvLoop (capped : Bool) : Nat → Chunks → Option (List Nat × Chunks)
  | 0, s => some ([], s)
  | _+1, [] => none
  | n+1, c :: cs =>
    match c with
    | [] => none
    | b :: cb =>
      let cap := if capped then min (n+1) 4096 else n+1
      let chunk := (b :: cb).take cap
      let rest := (b :: cb).drop cap
      let s2 := if rest.isEmpty then cs else rest :: cs
      match recvLoop capped (n+1 - chunk.length) s2 with
      | some p => some (chunk ++ p.1, p.2)
      | none => none
termination_by n => n
decreasing_by
  simp_wf
  split <;> omega

/-- The failure modes of `read_message`: the peer closed mid-frame
(`ConnectionError`) or the frame body failed to decode. -/
inductive ReadError where
  | connectionBroken
  | decodeError
  deriving DecidableEq

/-- Model of `Message.read_message`: read the 4-byte big-endian length, then
exactly that many body bytes, then deserialize; returns the message, the
consumed byte count (length plus the 4-byte prefix) and the rest of the
stream. -/
def read_message (s : Chunks) : Except ReadError (Message × Nat × Chunks) :=
  match recvLoop false 4 s with
  | none => .error .connectionBroken
  | some p1 =>
    let length := unpack32 p1.1
    match recvLoop true length p1.2 with
    | none => .error .connectionBroken
    | some p2 =>
      match deserialize p2.1 with
      | some msg => .ok (msg, length + 4, p2.2)
      | none => .error .decodeError

theorem recvLoop_cons_eq (capped : Bool) (n : Nat) (b : Nat) (cb : List Nat) (cs : Chunks) :
    recvLoop capped (n+1) ((b :: cb) :: cs) =
      (match recvLoop capped
          (n+1 - ((b :: cb).take (if capped then min (n+1) 4096 else n+1)).length)
          (if ((b :: cb).drop (if capped then min (n+1) 4096 else n+1)).isEmpty then cs
           else (b :: cb).drop (if capped then min (n+1) 4096 else n+1) :: cs) with
       | some p => some ((b :: cb).take (if capped then min (n+1) 4096 else n+1) ++ p.1, p.2)
       | none => none) := by
  rw [recvLoop.eq_def]

theorem recvLoop_success (capped : Bool) :
    ∀ n s, (∀ c ∈ s, c ≠ ([] : List Nat)) → n ≤ s.join.length →
      ∃ s2, recvLoop capped n s = some (s.join.take n, s2) ∧
        s2.join = s.join.drop n ∧ (∀ c ∈ s2, c ≠ ([] : List Nat)) := by
  intro n
  induction n using Nat.strong_induction_on with
  | _ n ih =>
    intro s hne hlen
    match n with
    | 0 => exact ⟨s, by rw [recvLoop.eq_def]; simp, by simp, hne⟩
    | n+1 =>
      match s with
      | [] => simp at hlen
      | c :: cs =>
        have hc : c ≠ [] := hne c (List.mem_cons_self c cs)
        obtain ⟨b, cb, rfl⟩ : ∃ b cb, c = b :: cb := by
          cases c with
          | nil => exact absurd rfl hc
          | cons b cb => exact ⟨b, cb, rfl⟩
        set cap := (if capped then min (n+1) 4096 else n+1) with hcapdef
        have hcap : 1 ≤ cap := by rw [hcapdef]; split <;> omega
        have hcapn : cap ≤ n + 1 := by rw [hcapdef]; split <;> omega
        set chunk := (b :: cb).take cap with hchunkdef
        have hchunklen : chunk.length = min cap (b :: cb).length := List.length_take cap _
        have hk1 : 1 ≤ chunk.length := by
          rw [hchunklen]
          simp only [List.length_cons]
          omega
        have hkn : chunk.length ≤ n + 1 := by rw [hchunklen]; omega
        set s2 := (if ((b :: cb).drop cap).isEmpty then cs else (b :: cb).drop cap :: cs)
          with hs2def
        have hs2join : s2.join = (b :: cb).drop cap ++ cs.join := by
          rw [hs2def]
          split
          · rename_i hemp
            simp [List.isEmpty_iff.mp hemp]
          · simp
        have hs2ne : ∀ x ∈ s2, x ≠ ([] : List Nat) := by
          intro x hx
          rw [hs2def] at hx
          split at hx
          · exact hne x (List.mem_cons_of_mem _ hx)
          · rcases List.mem_cons.mp hx with h1 | h1
            · rename_i hemp
              rw [h1]
              simpa [List.isEmpty_iff] using hemp
            · exact hne x (List.mem_cons_of_mem _ h1)
        have hjoin : ((b :: cb) :: cs).join = chunk ++ s2.join := by
          rw [hs2join, hchunkdef, ← List.append_assoc, List.take_append_drop]
          simp
        have hjlen : chunk.length + s2.join.length = ((b :: cb) :: cs).join.length := by
          rw [hjoin]
          simp
        rw [← hjlen] at hlen
        have hrec := ih (n + 1 - chunk.length) (by omega) s2 hs2ne (by omega)
        obtain ⟨s3, hrl, hj3, hne3⟩ := hrec
        refine ⟨s3, ?_, ?_, hne3⟩
        · rw [recvLoop_cons_eq, ← hcapdef, ← hchunkdef, ← hs2def, hrl]
          have htake : ((b :: cb) :: cs).join.take (n+1)
              = chunk ++ s2.join.take (n + 1 - chunk.length) := by
            rw [hjoin, List.take_append_eq_append_take, List.take_of_length_le hkn]
          rw [htake]
        · rw [hj3, hjoin, List.drop_append_eq_append_drop,
            List.drop_of_length_le hkn, List.nil_append]

theorem recvLoop_exhausted (capped : Bool) :
    ∀ n s, (∀ c ∈ s, c ≠ ([] : List Nat)) → s.join.length < n →
      recvLoop capped n s = none := by
  intro n
  induction n using Nat.strong_induction_on with
  | _ n ih =>
    intro s hne hlen
    match n with
    | 0 => omega
    | n+1 =>
      match s with
      | [] => rw [recvLoop.eq_def]
      | c :: cs =>
        have hc : c ≠ [] := hne c (List.mem_cons_self c cs)
        obtain ⟨b, cb, rfl⟩ : ∃ b cb, c = b :: cb := by
          cases c with
          | nil => exact absurd rfl hc
          | cons b cb => exact ⟨b, cb, rfl⟩
        set cap := (if capped then min (n+1) 4096 else n+1) with hcapdef
        have hcap : 1 ≤ cap := by rw [hcapdef]; split <;> omega
        set chunk := (b :: cb).take cap with hchunkdef
        have hchunklen : chunk.length = min cap (b :: cb).length := List.length_take cap _
        have hk1 : 1 ≤ chunk.length := by
          rw [hchunklen]
          simp only [List.length_cons]
          omega
        set s2 := (if ((b :: cb).drop cap).isEmpty then cs else (b :: cb).drop cap :: cs)
          with hs2def
        have hs2join : s2.join = (b :: cb).drop cap ++ cs.join := by
          rw [hs2def]
          split
          · rename_i hemp
            simp [List.isEmpty_iff.mp hemp]
          · simp
        have hs2ne : ∀ x ∈ s2, x ≠ ([] : List Nat) := by
          intro x hx
          rw [hs2def] at hx
          split at hx
          · exact hne x (List.mem_cons_of_mem _ hx)
          · rcases List.mem_cons.mp hx with h1 | h1
            · rename_i hemp
              rw [h1]
              simpa [List.isEmpty_iff] using hemp
            · exact hne x (List.mem_cons_of_mem _ h1)
        have hjoin : ((b :: cb) :: cs).join = chunk ++ s2.join := by
          rw [hs2join, hchunkdef, ← List.append_assoc, List.take_append_drop]
          simp
        have hjlen : chunk.length + s2.join.length = ((b :: cb) :: cs).join.length := by
          rw [hjoin]
          simp
        rw [← hjlen] at hlen
        rw [recvLoop_cons_eq, ← hcapdef, ← hchunkdef, ← hs2def,
          ih (n + 1 - chunk.length) (by omega) s2 hs2ne (by omega)]

theorem join_eq_nil_of_nonempty (s : Chunks) (hne : ∀ c ∈ s, c ≠ ([] : List Nat))
    (hj : s.join = []) : s = [] := by
  cases s with
  | nil => rfl
  | cons c cs =>
    have hc : c ≠ [] := hne c (List.mem_cons_self c cs)
    simp only [List.join_cons, List.append_eq_nil] at hj
    exact absurd hj.1 hc

theorem unpack32_pack32 (n : Nat) (h : n < 2^32) : unpack32 (pack32 n) = n := by
  simp only [pack32, unpack32]
  omega

/-- C2: for every encoded frame (4-byte big-endian length followed by
that many body bytes) and every partition of the frame into non-empty
chunks delivered in order, `read_message` returns the original message
with bytesConsumed equal to body length plus 4; if the stream is
exhausted before the 4 length bytes or before the body bytes are all
delivered (a proper prefix of the frame), `read_message` fails with the
connection-broken error. -/
theorem C2_read_message (mt : MessageType) (payload : JObj)
    (hv : ovalid payload = true)
    (hlen : (serializeBody (Message.mk mt (.obj payload))).length < 2^32) :
    (∀ chunks : Chunks, (∀ c ∈ chunks, c ≠ ([] : List Nat)) →
      chunks.join = serialize (Message.mk mt (.obj payload)) →
      read_message chunks
        = .ok (Message.mk mt (.obj payload),
            (serializeBody (Message.mk mt (.obj payload))).length + 4, [])) ∧
    (∀ (chunks : Chunks) (rest : List Nat), (∀ c ∈ chunks, c ≠ ([] : List Nat)) →
      rest ≠ [] → chunks.join ++ rest = serialize (Message.mk mt (.obj payload)) →
      read_message chunks = .error .connectionBroken) := by
  have hvd : jvalid (Message.mk mt (.obj payload)).data = true := by
    simpa [jvalid] using hv
  have hp4 : (pack32 (serializeBody (Message.mk mt (.obj payload))).length).length = 4 := by
    simp [pack32]
  have hser : serialize (Message.mk mt (.obj payload))
      = pack32 (serializeBody (Message.mk mt (.obj payload))).length
        ++ serializeBody (Message.mk mt (.obj payload)) := rfl
  have hserlen : (serialize (Message.mk mt (.obj payload))).length
      = 4 + (serializeBody (Message.mk mt (.obj payload))).length := by
    rw [hser, List.length_append, hp4]
  constructor
  · intro chunks hne hjoin
    have h4le : 4 ≤ chunks.join.length := by
      rw [hjoin, hserlen]; omega
    obtain ⟨s1, hr1, hj1, hne1⟩ := recvLoop_success false 4 chunks hne h4le
    have htake4 : chunks.join.take 4
        = pack32 (serializeBody (Message.mk mt (.obj payload))).length := by
      rw [hjoin, hser, List.take_append_eq_append_take,
        List.take_of_length_le (le_of_eq hp4), hp4]
      simp
    have hj1b : s1.join = serializeBody (Message.mk mt (.obj payload)) := by
      rw [hj1, hjoin, hser, List.drop_append_eq_append_drop,
        List.drop_of_length_le (le_of_eq hp4), hp4]
      simp
    obtain ⟨s2, hr2, hj2, hne2⟩ := recvLoop_success true
      (serializeBody (Message.mk mt (.obj payload))).length s1 hne1 (by rw [hj1b])
    have hs2nil : s2 = [] := by
      apply join_eq_nil_of_nonempty s2 hne2
      rw [hj2, hj1b]
      simp
    rw [htake4] at hr1
    rw [hj1b, List.take_length, hs2nil] at hr2
    unfold read_message
    simp only [hr1, unpack32_pack32 _ hlen, hr2,
      deserialize_serializeBody (Message.mk mt (.obj payload)) hvd]
  · intro chunks rest hne hrest hpre
    by_cases h4 : chunks.join.length < 4
    · unfold read_message
      rw [recvLoop_exhausted false 4 chunks hne h4]
    · push_neg at h4
      have hjlen : chunks.join.length + rest.length
          = 4 + (serializeBody (Message.mk mt (.obj payload))).length := by
        have hcl := congrArg List.length hpre
        rw [List.length_append, hserlen] at hcl
        exact hcl
      have hrestpos : 1 ≤ rest.length := by
        cases rest with
        | nil => exact absurd rfl hrest
        | cons a t => simp
      obtain ⟨s1, hr1, hj1, hne1⟩ := recvLoop_success false 4 chunks hne h4
      have htake4 : chunks.join.take 4
          = pack32 (serializeBody (Message.mk mt (.obj payload))).length := by
        have h1 : (chunks.join ++ rest).take 4 = chunks.join.take 4 :=
          List.take_append_of_le_length h4
        rw [← h1, hpre, hser, List.take_append_eq_append_take,
          List.take_of_length_le (le_of_eq hp4), hp4]
        simp
      rw [htake4] at hr1
      have hj1len : s1.join.length
          < (serializeBody (Message.mk mt (.obj payload))).length := by
        rw [hj1, List.length_drop]
        omega
      unfold read_message
      simp only [hr1, unpack32_pack32 _ hlen,
        recvLoop_exhausted true _ s1 hne1 hj1len]

/-- A concrete heartbeat message for the C2 witness. -/
def hbMsg : Message := Message.mk .HEARTBEAT (.obj .nil)

/-- C2 witness: the heartbeat frame delivered one byte at a time is
reassembled with the right consumed count; the same frame short one byte
fails with a broken connection. -/
theorem C2_read_message_witness :
    read_message ((serialize hbMsg).map (fun b => [b]))
      = .ok (hbMsg, (serializeBody hbMsg).length + 4, []) ∧
    read_message (((serialize hbMsg).take 26).map (fun b => [b]))
      = .error .connectionBroken := by
  constructor
  · exact (C2_read_message .HEARTBEAT .nil (by decide) (by decide)).1
      ((serialize hbMsg).map (fun b => [b])) (by decide) (by decide)
  · exact (C2_read_message .HEARTBEAT .nil (by decide) (by decide)).2
      (((serialize hbMsg).take 26).map (fun b => [b])) ((serialize hbMsg).drop 26)
      (by decide) (by decide) (by decide)

/-- Constant `OrderBookSharedMemory.HEADER_SIZE`: 8-byte timestamp plus two
4-byte counts. -/
def HEADER_SIZE : Nat := 16

/-- Constant `OrderBookSharedMemory.MEMORY_SIZE`: 64 KiB segment. -/
def MEMORY_SIZE : Nat := 1024 * 64

/-- The shared segment state, split along the fixed layout the code
reads and writes separately: the packed header fields (timestamp,
bid-level count, ask-level count) and the payload region of
`MEMORY_SIZE - HEADER_SIZE` raw bytes.  The float64/int32 byte encoding
of the header is not byte-modelled: the code only ever round-trips those
fields through `struct.pack`/`struct.unpack`, and no claim depends on
their bit patterns. -/
structure ShmState where
  ts : ℚ
  num_bids : Nat
  num_asks : Nat
  payload : List Nat

/-- A freshly created segment: `multiprocessing.shared_memory` zero-fills
new segments, so the timestamp reads as the zero sentinel and the
payload region is all null bytes. -/
def freshShm : ShmState :=
  { ts := 0, num_bids := 0, num_asks := 0,
    payload := List.replicate (MEMORY_SIZE - HEADER_SIZE) 0 }

/-- One price level `[price, size]` as encoded into the JSON document
(level numbers modelled in the exact-integer JSON sublanguage). -/
def levelJson (lv : Int × Int) : Json :=
  .arr (.cons (.num lv.1) (.cons (.num lv.2) .nil))

/-- A level list as a JSON array. -/
def levelsJson : List (Int × Int) → JArr
  | [] => .nil
  | lv :: r => .cons (levelJson lv) (levelsJson r)

/-- The bytes of the ASCII key "bids". -/
def bidsKey : List Nat := [98, 105, 100, 115]

/-- The bytes of the ASCII key "asks". -/
def asksKey : List Nat := [97, 115, 107, 115]

/-- The JSON document `write_orderbook` encodes: the dict with the two
level arrays in insertion order. -/
def obJson (bids asks : List (Int × Int)) : Json :=
  .obj (.cons bidsKey (.arr (levelsJson bids))
    (.cons asksKey (.arr (levelsJson asks)) .nil))

/-- The encoded payload (`json.dumps(data).encode('utf-8')`). -/
def encodeOB (bids asks : List (Int × Int)) : List Nat := dumps (obJson bids asks)

/-- Model of `OrderBookSharedMemory.write_orderbook`: reject with `ValueError` if
the encoded payload exceeds the capacity after the header (leaving the
segment untouched — the size check precedes every buffer write);
otherwise stamp the current time into the header and overwrite exactly
`len(json_bytes)` payload bytes.  The code writes no terminator, so
payload bytes beyond the new data keep their previous contents. -/
def write_orderbook (st : ShmState) (now : ℚ) (bids asks : List (Int × Int)) :
    Option String × ShmState :=
  let json_bytes := encodeOB bids asks
  if json_bytes.length > MEMORY_SIZE - HEADER_SIZE then
    (some "Order book data too large for shared memory", st)
  else
    (none, { ts := now, num_bids := bids.length, num_asks := asks.length,
             payload := json_bytes ++ st.payload.drop json_bytes.length })

/-- The reader's null-terminator scan: `json_bytes.index(b'\x00')`
truncation, or the whole region when no null byte occurs. -/
def takeUntilNull : List Nat → List Nat
  | [] => []
  | b :: r => if b = 0 then [] else b :: takeUntilNull r

/-- The snapshot `read_orderbook` returns: header timestamp plus the
level pairs exactly as they sit in the parsed JSON. -/
structure Snapshot where
  timestamp : ℚ
  bids : List (Json × Json)
  asks : List (Json × Json)
  deriving DecidableEq

/-- The `[(price, size) for price, size in data['bids']]` comprehension:
each element must be a two-element sequence or Python raises. -/
def decodeLevels : JArr → Option (List (Json × Json))
  | .nil => some []
  | .cons (.arr (.cons p (.cons sz .nil))) t =>
    (match decodeLevels t with
     | some r => some ((p, sz) :: r)
     | none => none)
  | .cons _ _ => none

/-- Model of `OrderBookSharedMemory.read_orderbook`: `.ok none` is the "no data"
result (zero timestamp sentinel, or undecodable/unparsable payload,
which the code catches and maps to `None`); `.error ()` models an
uncaught Python exception (document not a dict, missing key, value not a
list, element not a pair), which the code does not catch. -/
def read_orderbook (st : ShmState) : Except Unit (Option Snapshot) :=
  if st.ts = 0 then .ok none
  else
    match utf8DecodeAscii (takeUntilNull st.payload) with
    | none => .ok none
    | some cs =>
      match pyLoads cs with
      | none => .ok none
      | some (Json.obj members) =>
        (match lookupLast members bidsKey, lookupLast members asksKey with
         | some (Json.arr bl), some (Json.arr al) =>
           (match decodeLevels bl, decodeLevels al with
            | some bs, some as2 => .ok (some ⟨st.ts, bs, as2⟩)
            | _, _ => .error ())
         | _, _ => .error ())
      | some _ => .error ()

/-- Model of `OrderBookSharedMemory.get_best_bid_ask`: first bid price and first
ask price of a read snapshot, `none` when there is no data, either side
is empty, or the read raised. -/
def get_best_bid_ask (st : ShmState) : Option (Json × Json) :=
  match read_orderbook st with
  | .ok (some snap) =>
    (match snap.bids, snap.asks with
     | bb :: _, aa :: _ => some (bb.1, aa.1)
     | _, _ => none)
  | _ => none

/-- Level pairs as the reader hands them back for levels written from
integer pairs. -/
def levelPairs (l : List (Int × Int)) : List (Json × Json) :=
  l.map (fun lv => (Json.num lv.1, Json.num lv.2))

theorem levelsJson_avalid (l : List (Int × Int)) : avalid (levelsJson l) = true := by
  induction l with
  | nil => rfl
  | cons lv r ih => simp [levelsJson, avalid, levelJson, jvalid, ih]

theorem obJson_valid (bids asks : List (Int × Int)) : jvalid (obJson bids asks) = true := by
  simp [obJson, jvalid, ovalid, strValid, bidsKey, asksKey, safeByte,
    levelsJson_avalid]

theorem takeUntilNull_append (xs rest : List Nat) (h : ∀ b ∈ xs, b ≠ 0) :
    takeUntilNull (xs ++ rest) = xs ++ takeUntilNull rest := by
  induction xs with
  | nil => rfl
  | cons b t ih =>
    have hb : b ≠ 0 := h b (List.mem_cons_self b t)
    simp only [List.cons_append, takeUntilNull, hb, if_false, if_neg hb, List.append_eq]
    rw [ih (fun x hx => h x (List.mem_cons_of_mem b hx))]

theorem takeUntilNull_headD_zero (rest : List Nat) (h : rest.headD 0 = 0) :
    takeUntilNull rest = [] := by
  cases rest with
  | nil => rfl
  | cons b t =>
    simp only [List.headD_cons] at h
    simp [takeUntilNull, h]

theorem decodeLevels_levelsJson (l : List (Int × Int)) :
    decodeLevels (levelsJson l) = some (levelPairs l) := by
  induction l with
  | nil => rfl
  | cons lv r ih => simp [levelsJson, levelJson, decodeLevels, ih, levelPairs]

/-- C3 counterexample: the claim says a write/read roundtrip returns the
written levels regardless of what was written before.  Write a two-level
book, then a one-level book: the shorter payload leaves trailing bytes
of the longer previous payload before the first null, the JSON region no
longer parses (Python's "Extra data" error), and the read returns None
instead of the just-written snapshot. -/
theorem C3_counterexample :
    read_orderbook (write_orderbook
      (write_orderbook freshShm 1 [(1, 2), (3, 4)] []).2 1 [(1, 2)] []).2
      = .ok none ∧
    (∀ snap : Snapshot,
      (Except.ok (some snap) : Except Unit (Option Snapshot)) ≠ .ok none) := by
  constructor
  · rfl
  · intro snap h
    simp at h

/-- C3 (amended): writing a bid/ask pair that fits the segment and then
reading returns a snapshot whose levels equal the written input,
provided the payload region after the newly written bytes starts with a
null byte — as on a fresh segment, or whenever no strictly longer
payload was written before.  (When a shorter payload follows a longer
one, the leftover bytes corrupt the JSON region and the read returns
None; see the counterexample.) -/
theorem C3_write_read (st : ShmState) (now : ℚ) (bids asks : List (Int × Int))
    (hfit : (encodeOB bids asks).length ≤ MEMORY_SIZE - HEADER_SIZE)
    (hnow : ¬ now = 0)
    (hclean : (st.payload.drop (encodeOB bids asks).length).headD 0 = 0) :
    read_orderbook (write_orderbook st now bids asks).2
      = .ok (some ⟨now, levelPairs bids, levelPairs asks⟩) := by
  have hrange : ∀ b ∈ encodeOB bids asks, 32 ≤ b ∧ b ≤ 126 :=
    dumps_range _ (obJson_valid bids asks)
  have hnn : ∀ b ∈ encodeOB bids asks, b ≠ 0 := by
    intro b hb
    have := hrange b hb
    omega
  have hascii : (encodeOB bids asks).all (fun b => b < 128) = true := by
    rw [List.all_eq_true]
    intro b hb
    have := hrange b hb
    simp only [decide_eq_true_eq]
    omega
  have hload : pyLoads (encodeOB bids asks) = some (obJson bids asks) :=
    pyLoads_dumps _ (obJson_valid bids asks)
  have hwr : (write_orderbook st now bids asks).2
      = { ts := now, num_bids := bids.length, num_asks := asks.length,
          payload := encodeOB bids asks ++ st.payload.drop (encodeOB bids asks).length } := by
    unfold write_orderbook
    rw [if_neg (by omega)]
  rw [hwr]
  simp [read_orderbook, hnow, takeUntilNull_append _ _ hnn,
    takeUntilNull_headD_zero _ hclean, utf8DecodeAscii, hascii, hload, obJson,
    lookupLast, bidsKey, asksKey, decodeLevels_levelsJson]

/-- C3 witness: a fresh segment, one write, one read, levels returned
exactly. -/
theorem C3_write_read_witness :
    read_orderbook (write_orderbook freshShm 1 [(1, 2)] [(3, 4)]).2
      = .ok (some ⟨1, levelPairs [(1, 2)], levelPairs [(3, 4)]⟩) :=
  C3_write_read freshShm 1 [(1, 2)] [(3, 4)] (by decide) (by decide) (by decide)

/-- C4: a write whose encoded payload is exactly the capacity after the
header (65536 - 16 bytes) succeeds, while a payload one byte larger is
rejected with the capacity error, and the rejecting write leaves the
entire segment state unchanged (the size check precedes every write to
the buffer). -/
theorem C4_capacity_boundary (st st2 : ShmState) (now now2 : ℚ)
    (bids asks bids2 asks2 : List (Int × Int))
    (hexact : (encodeOB bids asks).length = MEMORY_SIZE - HEADER_SIZE)
    (hover : (encodeOB bids2 asks2).length = MEMORY_SIZE - HEADER_SIZE + 1) :
    (write_orderbook st now bids asks).1 = none ∧
    (write_orderbook st2 now2 bids2 asks2).1
      = some "Order book data too large for shared memory" ∧
    (write_orderbook st2 now2 bids2 asks2).2 = st2 := by
  have h1 : ¬ (encodeOB bids asks).length > MEMORY_SIZE - HEADER_SIZE := by omega
  have h2 : (encodeOB bids2 asks2).length > MEMORY_SIZE - HEADER_SIZE := by omega
  simp [write_orderbook, h1, h2]

/-- A bid list whose encoding is exactly the payload capacity of 65520
bytes: one 8-byte level and 8186 6-byte levels, with 8187 separators and
framing. -/
def bigBids : List (Int × Int) := (10, 10) :: List.replicate 8186 (1, 1)

/-- One byte over capacity: an extra digit in the second level. -/
def bigBids2 : List (Int × Int) := (10, 10) :: (1, 11) :: List.replicate 8185 (1, 1)

theorem sepLen_replicate (k : Nat) :
    (dumpsASep (levelsJson (List.replicate k ((1 : Int), (1 : Int))))).length = 8 * k := by
  induction k with
  | zero => rfl
  | succ k ih =>
    rw [List.replicate_succ]
    simp only [levelsJson, dumpsASep, levelJson]
    simp only [List.length_cons, List.length_append]
    rw [ih]
    norm_num [dumps, dumpsA, dumpsASep, printInt, printNat, printNatAux]
    omega

theorem dumps_obj2_len (k1 : List Nat) (v1 : Json) (k2 : List Nat) (v2 : Json) :
    (dumps (.obj (.cons k1 v1 (.cons k2 v2 .nil)))).length
      = k1.length + (dumps v1).length + k2.length + (dumps v2).length + 12 := by
  simp only [dumps, dumpsO, dumpsOSep, List.length_cons, List.length_append,
    List.length_nil, List.length_singleton]
  omega

theorem dumps_arr_cons_len (h : Json) (t : JArr) :
    (dumps (.arr (.cons h t))).length = 2 + (dumps h).length + (dumpsASep t).length := by
  simp [dumps, dumpsA]
  omega

theorem dumpsASep_cons_len (h : Json) (t : JArr) :
    (dumpsASep (.cons h t)).length = 2 + (dumps h).length + (dumpsASep t).length := by
  simp only [dumpsASep, List.length_cons, List.length_append]
  omega

theorem bigBids_len : (encodeOB bigBids []).length = MEMORY_SIZE - HEADER_SIZE := by
  have h1 : (dumps (levelJson ((10 : Int), (10 : Int)))).length = 8 := by decide
  have h2 := sepLen_replicate 8186
  have e0 : encodeOB bigBids []
      = dumps (.obj (.cons bidsKey (.arr (.cons (levelJson ((10 : Int), (10 : Int)))
          (levelsJson (List.replicate 8186 ((1 : Int), (1 : Int))))))
          (.cons asksKey (.arr .nil) .nil))) := rfl
  rw [e0, dumps_obj2_len, dumps_arr_cons_len, h1, h2,
    show (dumps (.arr .nil)).length = 2 from by decide,
    show bidsKey.length = 4 from rfl, show asksKey.length = 4 from rfl,
    show MEMORY_SIZE - HEADER_SIZE = 65520 from by decide]

theorem bigBids2_len : (encodeOB bigBids2 []).length = MEMORY_SIZE - HEADER_SIZE + 1 := by
  have h1 : (dumps (levelJson ((10 : Int), (10 : Int)))).length = 8 := by decide
  have h1b : (dumps (levelJson ((1 : Int), (11 : Int)))).length = 7 := by decide
  have h2 := sepLen_replicate 8185
  have e0 : encodeOB bigBids2 []
      = dumps (.obj (.cons bidsKey (.arr (.cons (levelJson ((10 : Int), (10 : Int)))
          (.cons (levelJson ((1 : Int), (11 : Int)))
            (levelsJson (List.replicate 8185 ((1 : Int), (1 : Int)))))))
          (.cons asksKey (.arr .nil) .nil))) := rfl
  rw [e0, dumps_obj2_len, dumps_arr_cons_len, dumpsASep_cons_len, h1, h1b, h2,
    show (dumps (.arr .nil)).length = 2 from by decide,
    show bidsKey.length = 4 from rfl, show asksKey.length = 4 from rfl,
    show MEMORY_SIZE - HEADER_SIZE = 65520 from by decide]

/-- C4 witness: the two boundary writes on a fresh segment. -/
theorem C4_capacity_boundary_witness :
    (write_orderbook freshShm 1 bigBids []).1 = none ∧
    (write_orderbook freshShm 1 bigBids2 []).1
      = some "Order book data too large for shared memory" ∧
    (write_orderbook freshShm 1 bigBids2 []).2 = freshShm :=
  C4_capacity_boundary freshShm freshShm 1 1 bigBids [] bigBids2 [] bigBids_len bigBids2_len

/-- Constant `Config.PRICE_CHANGE_THRESHOLD`: 0.5% price change for a signal. -/
def Config.PRICE_CHANGE_THRESHOLD : ℚ := 0.005

/-- Constant `Config.SENTIMENT_THRESHOLD`: sentiment score threshold. -/
def Config.SENTIMENT_THRESHOLD : ℚ := 0.3

/-- Order/signal side. -/
inductive Side where
  | BUY
  | SELL
  deriving DecidableEq

/-- A trading signal dictionary as built by `Strategy.generate_signal`. -/
structure Signal where
  symbol : String
  action : Side
  price : ℚ
  price_change : ℚ
  sentiment : ℚ
  timestamp : ℚ
  deriving DecidableEq

/-- The `Strategy` mutable state: `last_prices` (a plain dict, so
`Option`-valued) and `sentiment_scores` (a `defaultdict(float)`, so a
total map defaulting to 0 — all reads use the zero default), plus the
two statistics counters.  Prices and scores are modelled over ℚ. -/
structure StratState where
  last_prices : String → Option ℚ
  sentiment_scores : String → ℚ
  signal_count : Nat
  order_count : Nat

/-- The state `Strategy.__init__` sets up. -/
def initStrategy : StratState :=
  { last_prices := fun _ => none, sentiment_scores := fun _ => 0,
    signal_count := 0, order_count := 0 }

/-- Model of `Strategy.generate_signal`: BUY on price change strictly above the
threshold with sentiment strictly above its threshold, SELL on the
mirrored strict conditions, otherwise no signal; `signal_count` is
incremented exactly when a signal fires.  The wall-clock reading is an
input. -/
def generate_signal (st : StratState) (symbol : String) (current_price : ℚ) (now : ℚ) :
    Option Signal × StratState :=
  match st.last_prices symbol with
  | none => (none, st)
  | some last_price =>
    let price_change := (current_price - last_price) / last_price
    let sentiment := st.sentiment_scores symbol
    if price_change > Config.PRICE_CHANGE_THRESHOLD ∧
        sentiment > Config.SENTIMENT_THRESHOLD then
      (some { symbol := symbol, action := .BUY, price := current_price,
              price_change := price_change, sentiment := sentiment, timestamp := now },
       { st with signal_count := st.signal_count + 1 })
    else if price_change < -Config.PRICE_CHANGE_THRESHOLD ∧
        sentiment < -Config.SENTIMENT_THRESHOLD then
      (some { symbol := symbol, action := .SELL, price := current_price,
              price_change := price_change, sentiment := sentiment, timestamp := now },
       { st with signal_count := st.signal_count + 1 })
    else (none, st)

/-- Python `int()` truncation toward zero on exact rationals. -/
def pyInt (x : ℚ) : Int := if 0 ≤ x then x.floor else -((-x).floor)

/-- The order identifier `Strategy.create_order` builds:
`ORD_{int(time.time() * 1000000)}`, a pure function of the clock
reading. -/
def make_order_id (now : ℚ) : String := "ORD_" ++ toString (pyInt (now * 1000000))

/-- An order dictionary as built by `Strategy.create_order` (the
`signal_data` provenance dict is flattened into the last two fields). -/
structure Order where
  order_id : String
  symbol : String
  side : Side
  price : ℚ
  quantity : Int
  timestamp : ℚ
  price_change : ℚ
  sentiment : ℚ
  deriving DecidableEq

/-- Model of `Strategy.create_order`: id from the clock, fields from the signal,
quantity `random.randint(10, 100)` modelled as an input. -/
def create_order (signal : Signal) (now : ℚ) (qty : Int) : Order :=
  { order_id := make_order_id now, symbol := signal.symbol, side := signal.action,
    price := signal.price, quantity := qty, timestamp := now,
    price_change := signal.price_change, sentiment := signal.sentiment }

/-- Model of `Strategy.process_market_data`: only a strictly positive last price
is processed; a generated signal becomes an order sent to the
OrderManager (`sendOk` models whether the socket send succeeded — a
failure is logged, leaves the per-symbol state untouched and only skips
the order-count increment); in every processed case the last price is
recorded afterwards. -/
def process_market_data (st : StratState) (symbol : String) (last_price : ℚ)
    (now : ℚ) (qty : Int) (sendOk : Bool) : StratState × Option Order :=
  if last_price > 0 then
    let r := generate_signal st symbol last_price now
    match r.1 with
    | some sig =>
      let st2 := if sendOk then { r.2 with order_count := r.2.order_count + 1 } else r.2
      ({ st2 with last_prices := fun x => if x = symbol then some last_price
                    else st2.last_prices x },
       some (create_order sig now qty))
    | none =>
      ({ r.2 with last_prices := fun x => if x = symbol then some last_price
                    else r.2.last_prices x },
       none)
  else (st, none)

/-- Model of `Strategy.process_news`: exponential moving average of the sentiment
score with fixed weight `alpha = 0.3`. -/
def process_news (st : StratState) (symbol : String) (score : ℚ) : StratState :=
  let alpha : ℚ := 0.3
  { st with sentiment_scores := fun x =>
      if x = symbol then alpha * score + (1 - alpha) * st.sentiment_scores x
      else st.sentiment_scores x }

/-- One event on the Strategy input stream, with the nondeterministic
inputs of the corresponding handler (clock, random quantity, socket
outcome) made explicit; `other` stands for the message kinds the run
loop ignores. -/
inductive FeedEvent where
  | marketData (symbol : String) (last_price : ℚ) (now : ℚ) (qty : Int) (sendOk : Bool)
  | news (symbol : String) (score : ℚ)
  | other

/-- One iteration of the `Strategy.run` dispatch: MARKET_DATA goes to
`process_market_data`, NEWS_SENTIMENT to `process_news` (producing no
order), anything else leaves the state alone. -/
def strategy_step (st : StratState) (ev : FeedEvent) : StratState × Option Order :=
  match ev with
  | .marketData symbol price now qty sendOk =>
    process_market_data st symbol price now qty sendOk
  | .news symbol score => (process_news st symbol score, none)
  | .other => (st, none)

/-- The Strategy state after consuming a list of events from the initial
state. -/
def run_strategy_events (st : StratState) (evs : List FeedEvent) : StratState :=
  evs.foldl (fun s e => (strategy_step s e).1) st

/-- C5: on a market-data event with positive last price, the engine
records the price afterwards in every case; with no prior price nothing
is emitted; with a prior price, BUY is emitted exactly when the relative
price change strictly exceeds 0.005 and sentiment strictly exceeds 0.3,
SELL exactly under the mirrored strict conditions, and nothing
otherwise. -/
theorem C5_signal_gating (st : StratState) (sym : String) (p now : ℚ) (qty : Int)
    (sendOk : Bool) (hp : 0 < p) :
    ((process_market_data st sym p now qty sendOk).1.last_prices sym = some p) ∧
    (st.last_prices sym = none → (process_market_data st sym p now qty sendOk).2 = none) ∧
    (∀ prev, st.last_prices sym = some prev →
      (((process_market_data st sym p now qty sendOk).2.map Order.side = some Side.BUY) ↔
        ((p - prev) / prev > Config.PRICE_CHANGE_THRESHOLD ∧
          st.sentiment_scores sym > Config.SENTIMENT_THRESHOLD)) ∧
      (((process_market_data st sym p now qty sendOk).2.map Order.side = some Side.SELL) ↔
        ((p - prev) / prev < -Config.PRICE_CHANGE_THRESHOLD ∧
          st.sentiment_scores sym < -Config.SENTIMENT_THRESHOLD)) ∧
      ((¬ ((p - prev) / prev > Config.PRICE_CHANGE_THRESHOLD ∧
            st.sentiment_scores sym > Config.SENTIMENT_THRESHOLD)) →
       (¬ ((p - prev) / prev < -Config.PRICE_CHANGE_THRESHOLD ∧
            st.sentiment_scores sym < -Config.SENTIMENT_THRESHOLD)) →
       (process_market_data st sym p now qty sendOk).2 = none)) := by
  refine ⟨?_, ?_, ?_⟩
  · simp only [process_market_data, if_pos hp]
    cases hl : st.last_prices sym with
    | none => simp [generate_signal, hl]
    | some prev =>
      simp only [generate_signal, hl]
      split_ifs <;> simp
  · intro hl
    simp [process_market_data, if_pos hp, generate_signal, hl]
  · intro prev hl
    by_cases hbuy : (p - prev) / prev > Config.PRICE_CHANGE_THRESHOLD ∧
        st.sentiment_scores sym > Config.SENTIMENT_THRESHOLD
    · have hnsell : ¬ ((p - prev) / prev < -Config.PRICE_CHANGE_THRESHOLD ∧
          st.sentiment_scores sym < -Config.SENTIMENT_THRESHOLD) := by
        rcases hbuy with ⟨h1, -⟩
        rintro ⟨h3, -⟩
        simp only [Config.PRICE_CHANGE_THRESHOLD] at h1 h3
        linarith
      simp [process_market_data, hp, generate_signal, hl, hbuy, hnsell, create_order]
    · by_cases hsell : (p - prev) / prev < -Config.PRICE_CHANGE_THRESHOLD ∧
          st.sentiment_scores sym < -Config.SENTIMENT_THRESHOLD
      · simp [process_market_data, hp, generate_signal, hl, hbuy, hsell, create_order]
      · simp [process_market_data, hp, generate_signal, hl, hbuy, hsell]

/-- A concrete strategy state for the C5 witness: previous price 100 for
AAPL, sentiment 0.5 everywhere. -/
def stEx : StratState :=
  { last_prices := fun s => if s = "AAPL" then some 100 else none,
    sentiment_scores := fun _ => 1/2, signal_count := 0, order_count := 0 }

/-- C5 witness: prevPrice 100, sentiment 0.5, new price 100.6 (change
0.006) emits BUY and records the new price. -/
theorem C5_signal_gating_witness :
    (process_market_data stEx "AAPL" (503/5) 1 50 true).2.map Order.side
      = some Side.BUY ∧
    (process_market_data stEx "AAPL" (503/5) 1 50 true).1.last_prices "AAPL"
      = some (503/5) := by
  have h := C5_signal_gating stEx "AAPL" (503/5) 1 50 true (by norm_num)
  refine ⟨((h.2.2 100 (by decide)).1).mpr ?_, h.1⟩
  constructor
  · show (503/5 - 100) / 100 > Config.PRICE_CHANGE_THRESHOLD
    norm_num [Config.PRICE_CHANGE_THRESHOLD]
  · show stEx.sentiment_scores "AAPL" > Config.SENTIMENT_THRESHOLD
    norm_num [stEx, Config.SENTIMENT_THRESHOLD]

/-- C6: a news-sentiment event updates the symbol's sentiment to
0.3·score + 0.7·previous (previous defaulting to 0 for a never-seen
symbol), produces no order or signal and leaves prices and counters
untouched; in particular two successive scores of 1.0 from a fresh
state yield 0.3 and then 0.51. -/
theorem C6_sentiment_ema (st : StratState) (sym : String) (score : ℚ) :
    ((strategy_step st (.news sym score)).2 = none) ∧
    ((strategy_step st (.news sym score)).1.sentiment_scores sym
      = 0.3 * score + 0.7 * st.sentiment_scores sym) ∧
    ((strategy_step st (.news sym score)).1.last_prices = st.last_prices) ∧
    ((strategy_step st (.news sym score)).1.signal_count = st.signal_count) ∧
    ((strategy_step st (.news sym score)).1.order_count = st.order_count) ∧
    ((run_strategy_events initStrategy [.news "X" 1]).sentiment_scores "X" = 0.3) ∧
    ((run_strategy_events initStrategy [.news "X" 1, .news "X" 1]).sentiment_scores "X"
      = 0.51) := by
  refine ⟨rfl, ?_, rfl, rfl, rfl, ?_, ?_⟩
  · simp only [strategy_step, process_news]
    norm_num
  · norm_num [run_strategy_events, strategy_step, process_news, initStrategy]
  · norm_num [run_strategy_events, strategy_step, process_news, initStrategy]

/-- A concrete signal for the C9 evaluation. -/
def sig0 : Signal :=
  { symbol := "AAPL", action := .BUY, price := 100, price_change := 1/100,
    sentiment := 1/2, timestamp := 1 }

/-- C9: the claim (and the spec's uniqueness requirement) says two
create_order calls always produce distinct order identifiers, even
within the same microsecond.  The code derives the identifier purely
from `int(time.time() * 1000000)`, so two calls whose clock readings
fall in the same microsecond collide: clocks 1 s and 1 + 1/2000000 s
(half a microsecond apart) both yield "ORD_1000000". -/
theorem C9_order_id_collision :
    (create_order sig0 1 50).order_id = (create_order sig0 (1 + 1/2000000) 50).order_id ∧
    (1 : ℚ) ≠ 1 + 1/2000000 ∧
    (create_order sig0 1 50).order_id = "ORD_1000000" := by
  refine ⟨?_, by norm_num, ?_⟩ <;> with_unfolding_all decide

theorem process_market_data_sentiment_eq (st : StratState) (sym : String) (p now : ℚ)
    (qty : Int) (sendOk : Bool) :
    (process_market_data st sym p now qty sendOk).1.sentiment_scores
      = st.sentiment_scores := by
  by_cases hp : p > 0
  · cases hl : st.last_prices sym with
    | none => simp [process_market_data, hp, generate_signal, hl]
    | some prev =>
      by_cases hbuy : (p - prev) / prev > Config.PRICE_CHANGE_THRESHOLD ∧
          st.sentiment_scores sym > Config.SENTIMENT_THRESHOLD
      · cases sendOk <;>
          simp [process_market_data, hp, generate_signal, hl, hbuy]
      · by_cases hsell : (p - prev) / prev < -Config.PRICE_CHANGE_THRESHOLD ∧
            st.sentiment_scores sym < -Config.SENTIMENT_THRESHOLD
        · cases sendOk <;>
            simp [process_market_data, hp, generate_signal, hl, hbuy, hsell]
        · simp [process_market_data, hp, generate_signal, hl, hbuy, hsell]
  · simp [process_market_data, hp]

/-- C10: if every news score processed so far lies in [-1, 1], every
per-symbol sentiment value lies in [-1, 1] — the state starts at 0, the
EMA update is a convex combination preserving the interval, and no other
event kind touches the sentiment map. -/
theorem C10_sentiment_bounded (evs : List FeedEvent)
    (hb : ∀ sym sc, FeedEvent.news sym sc ∈ evs → -1 ≤ sc ∧ sc ≤ 1) (sym : String) :
    -1 ≤ (run_strategy_events initStrategy evs).sentiment_scores sym ∧
    (run_strategy_events initStrategy evs).sentiment_scores sym ≤ 1 := by
  have main : ∀ (l : List FeedEvent) (st : StratState),
      (∀ s2, -1 ≤ st.sentiment_scores s2 ∧ st.sentiment_scores s2 ≤ 1) →
      (∀ s2 sc, FeedEvent.news s2 sc ∈ l → -1 ≤ sc ∧ sc ≤ 1) →
      ∀ s2, -1 ≤ (run_strategy_events st l).sentiment_scores s2 ∧
        (run_strategy_events st l).sentiment_scores s2 ≤ 1 := by
    intro l
    induction l with
    | nil =>
      intro st hst _ s2
      exact hst s2
    | cons e rest ih =>
      intro st hst hbl s2
      show -1 ≤ (run_strategy_events (strategy_step st e).1 rest).sentiment_scores s2 ∧ _
      apply ih
      · intro s3
        cases e with
        | marketData sy p n q ok =>
          simp only [strategy_step, process_market_data_sentiment_eq]
          exact hst s3
        | news sy sc =>
          have hsc := hbl sy sc (List.mem_cons_self _ _)
          simp [strategy_step, process_news]
          by_cases he : s3 = sy
          · rw [if_pos he, he]
            have h1 := (hst sy).1
            have h2 := (hst sy).2
            constructor <;> linarith [hsc.1, hsc.2]
          · rw [if_neg he]
            exact hst s3
        | other => exact hst s3
      · intro s3 sc hm
        exact hbl s3 sc (List.mem_cons_of_mem _ hm)
  exact main evs initStrategy (by intro s2; simp [initStrategy]) hb sym

/-- A concrete event trace for the C10 witness. -/
def evsEx : List FeedEvent :=
  [.news "A" 1, .marketData "A" 5 1 50 true, .news "A" (-1)]

/-- C10 witness: the bound at a concrete trace with extreme scores. -/
theorem C10_sentiment_bounded_witness :
    -1 ≤ (run_strategy_events initStrategy evsEx).sentiment_scores "A" ∧
    (run_strategy_events initStrategy evsEx).sentiment_scores "A" ≤ 1 :=
  C10_sentiment_bounded evsEx
    (by
      intro sym sc h
      simp [evsEx] at h
      rcases h with ⟨-, rfl⟩ | ⟨-, rfl⟩ <;> norm_num)
    "A"

/-- Round half to even on exact rationals, as Python's banker's
rounding. -/
def roundHalfEven (x : ℚ) : Int :=
  let f := x.floor
  if x - f < 1/2 then f
  else if x - f > 1/2 then f + 1
  else if f % 2 = 0 then f else f + 1

/-- Python's `round(x, 2)`: round to the nearest multiple of 1/100,
halves to even. -/
def round2 (x : ℚ) : ℚ := (roundHalfEven (x * 100) : ℚ) / 100

/-- An execution record as built by `OrderManager.execute_order`. -/
structure Execution where
  execution_id : String
  order_id : String
  symbol : String
  side : Side
  quantity : Int
  order_price : ℚ
  execution_price : ℚ
  timestamp : ℚ
  status : String
  deriving DecidableEq

/-- Model of `OrderManager.execute_order`: the uniformly sampled slippage in
[-0.001, 0.001] is an input; the execution price is the order price
times (1 + slippage), and the recorded value is that price rounded to
two decimal places; status is fixed FILLED. -/
def execute_order (order : Order) (slippage : ℚ) (now : ℚ) : Execution :=
  let execution_price := order.price * (1 + slippage)
  { execution_id := "EXEC_" ++ toString (pyInt (now * 1000000)),
    order_id := order.order_id, symbol := order.symbol, side := order.side,
    quantity := order.quantity, order_price := order.price,
    execution_price := round2 execution_price, timestamp := now,
    status := "FILLED" }

theorem rat_floor_le (x : ℚ) : (x.floor : ℚ) ≤ x := by
  have := Rat.le_floor.mp (le_refl x.floor)
  exact this

theorem rat_lt_floor_add_one (x : ℚ) : x < x.floor + 1 := by
  by_contra h
  push_neg at h
  have h2 : (x.floor + 1 : ℤ) ≤ x.floor := Rat.le_floor.mpr (by push_cast; linarith)
  omega

theorem round2_close (x : ℚ) : x - 1/200 ≤ round2 x ∧ round2 x ≤ x + 1/200 := by
  have h1 : ((x * 100).floor : ℚ) ≤ x * 100 := rat_floor_le (x * 100)
  have h2 : x * 100 < (x * 100).floor + 1 := rat_lt_floor_add_one (x * 100)
  unfold round2 roundHalfEven
  simp only []
  split_ifs with hA hB hC
  · constructor <;> [linarith; linarith]
  · push_cast
    constructor <;> [linarith; linarith]
  · constructor <;> [linarith; linarith]
  · push_cast
    constructor <;> [linarith; linarith]

/-- C7 counterexample: the claim says the recorded execution price lies
in [P·0.999, P·1.001] for every order price P and slippage in
[-0.001, 0.001].  At P = 0.004 with slippage 0 (inside the bounds), the
raw price 0.004 is rounded to two decimals, the recorded price is 0.0,
and 0.0 < 0.999 · 0.004: the recorded price leaves the interval. -/
theorem C7_counterexample :
    (execute_order
      { order_id := "ORD_1000000", symbol := "AAPL", side := .BUY, price := 1/250,
        quantity := 50, timestamp := 1, price_change := 1/100, sentiment := 1/2 }
      0 1).execution_price = 0 ∧
    (-(1/1000) : ℚ) ≤ 0 ∧ (0 : ℚ) ≤ 1/1000 ∧
    ¬ (999/1000 * (1/250 : ℚ) ≤ (execute_order
      { order_id := "ORD_1000000", symbol := "AAPL", side := .BUY, price := 1/250,
        quantity := 50, timestamp := 1, price_change := 1/100, sentiment := 1/2 }
      0 1).execution_price) := by
  have h : (execute_order
      { order_id := "ORD_1000000", symbol := "AAPL", side := .BUY, price := 1/250,
        quantity := 50, timestamp := 1, price_change := 1/100, sentiment := 1/2 }
      0 1).execution_price = 0 := by
    with_unfolding_all decide
  refine ⟨h, by norm_num, by norm_num, ?_⟩
  rw [h]
  norm_num

/-- C7 (amended): for every order with price P ≥ 0 and every slippage in
[-0.001, 0.001], the pre-rounding execution price P·(1+s) lies in
[P·0.999, P·1.001]; the recorded execution price is that value rounded
to two decimals and therefore lies within the interval enlarged by half
a cent on each side (and can leave the original interval, as the
counterexample shows). -/
theorem C7_execution_price_bounds (o : Order) (s now : ℚ) (hP : 0 ≤ o.price)
    (hs1 : -(1/1000) ≤ s) (hs2 : s ≤ 1/1000) :
    (999/1000 * o.price ≤ o.price * (1 + s) ∧
      o.price * (1 + s) ≤ 1001/1000 * o.price) ∧
    (999/1000 * o.price - 1/200 ≤ (execute_order o s now).execution_price ∧
      (execute_order o s now).execution_price ≤ 1001/1000 * o.price + 1/200) := by
  have hraw1 : 999/1000 * o.price ≤ o.price * (1 + s) := by nlinarith
  have hraw2 : o.price * (1 + s) ≤ 1001/1000 * o.price := by nlinarith
  have hr := round2_close (o.price * (1 + s))
  refine ⟨⟨hraw1, hraw2⟩, ?_⟩
  show 999/1000 * o.price - 1/200 ≤ round2 (o.price * (1 + s)) ∧
    round2 (o.price * (1 + s)) ≤ 1001/1000 * o.price + 1/200
  constructor <;> linarith [hr.1, hr.2]

/-- C7 witness: the bounds at order price 100 with extreme slippage. -/
theorem C7_execution_price_bounds_witness :
    (999/1000 * (sig0.price) ≤ sig0.price * (1 + 1/1000) ∧
      sig0.price * (1 + 1/1000) ≤ 1001/1000 * sig0.price) ∧
    (999/1000 * sig0.price - 1/200
        ≤ (execute_order (create_order sig0 1 50) (1/1000) 1).execution_price ∧
      (execute_order (create_order sig0 1 50) (1/1000) 1).execution_price
        ≤ 1001/1000 * sig0.price + 1/200) :=
  C7_execution_price_bounds (create_order sig0 1 50) (1/1000) 1 (by norm_num [create_order, sig0])
    (by norm_num) (by norm_num)
